import Mathlib

set_option maxHeartbeats 1000000

/-! Verification of the line-comment toggling and comment-continuation core
    (helix-core `comment.rs`).  The document is embedded as a flat character
    list; the rope's line-oriented interface (`line`, `len_lines`,
    `line_to_char`) is derived from it exactly as ropey derives it: lines are
    the pieces between newline characters, a line slice includes its
    terminating newline (except for the last line). -/

/-- Unicode whitespace test mirroring Rust's `char::is_whitespace`
    (the Unicode White_Space property). -/
def isWhitespaceChar (c : Char) : Bool :=
  decide ((0x9 ≤ c.toNat ∧ c.toNat ≤ 0xD) ∨ c.toNat = 0x20 ∨ c.toNat = 0x85 ∨
    c.toNat = 0xA0 ∨ c.toNat = 0x1680 ∨ (0x2000 ≤ c.toNat ∧ c.toNat ≤ 0x200A) ∨
    c.toNat = 0x2028 ∨ c.toNat = 0x2029 ∨ c.toNat = 0x202F ∨ c.toNat = 0x205F ∨
    c.toNat = 0x3000)

/-- Rust `str::len`: the UTF-8 byte length of a string, as opposed to its
    character count (`str::chars().count()` = `List.length`). -/
def utf8Len (s : List Char) : Nat := (s.map Char.utf8Size).sum

/-- The lines of a text, split at newline characters, each piece without the
    newline.  Matches ropey: `"a\n"` has lines `["a", ""]`, `""` has lines
    `[""]`. -/
def splitLines : List Char → List (List Char)
  | [] => [[]]
  | c :: t =>
    if c = '\n' then [] :: splitLines t
    else
      match splitLines t with
      | [] => [[c]]
      | L :: ls => (c :: L) :: ls

/-- Rebuild a text from its lines, interposing newlines. -/
def renderLines : List (List Char) → List Char
  | [] => []
  | [L] => L
  | L :: M :: ls => L ++ '\n' :: renderLines (M :: ls)

/-- The text following the first line: empty when there are no further lines,
    else a newline followed by the remaining lines. -/
def renderTail : List (List Char) → List Char
  | [] => []
  | L :: ls => '\n' :: renderLines (L :: ls)

/-- Ropey `Rope::len_lines`. -/
def lenLines (t : List Char) : Nat := (splitLines t).length

/-- Ropey `Rope::line`: the i-th line slice, including the terminating
    newline except on the last line. -/
def lineSlice (t : List Char) (i : Nat) : List Char :=
  (splitLines t).getD i [] ++ (if i + 1 < (splitLines t).length then ['\n'] else [])

/-- Character offset of the start of line i over an explicit line list. -/
def lineToCharL : List (List Char) → Nat → Nat
  | _, 0 => 0
  | [], _ + 1 => 0
  | L :: ls, i + 1 => L.length + 1 + lineToCharL ls i

/-- Ropey `Rope::line_to_char`. -/
def lineToChar (t : List Char) (i : Nat) : Nat := lineToCharL (splitLines t) i

/-- Modelled from the spec: the Whitespace Scanner collaborator's
    `firstNonWhitespaceColumn` (helix `chars::find_first_non_whitespace_char`,
    whose source is not under src/): the column of the first non-whitespace
    character of a line, none when the line has no non-whitespace character. -/
def find_first_non_whitespace_char : List Char → Option Nat
  | [] => none
  | c :: l =>
    if isWhitespaceChar c then (find_first_non_whitespace_char l).map (· + 1)
    else some 0

/-- Modelled from the spec: the Whitespace Scanner collaborator's
    `whitespaceRunLength` (helix `chars::count_whitespace_after`, whose source
    is not under src/).  Section 4.4 defers the exact off-by-one boundary to
    the collaborator with section 8's scenarios as ground truth; those
    scenarios fix it as: with run the number of consecutive whitespace
    characters starting immediately after position pos, the result is none
    when run is zero and some (run - 1) otherwise. -/
def count_whitespace_after (l : List Char) (pos : Nat) : Option Nat :=
  let run := ((l.drop (pos + 1)).takeWhile isWhitespaceChar).length
  if run = 0 then none else some (run - 1)

/-- A Change: start offset, end offset, optional replacement text. -/
abbrev Change := Nat × Nat × Option (List Char)

/-- Modelled from the spec: the Transaction collaborator (helix
    `Transaction::change` and `Transaction::apply`, whose source is not under
    src/) applies an ordered, non-overlapping Change list atomically;
    positions refer to the original document. -/
def applyChangesFrom : Nat → List Char → List Change → List Char
  | _, rest, [] => rest
  | base, rest, (f, t, r) :: cs =>
    rest.take (f - base) ++ r.getD [] ++ applyChangesFrom t (rest.drop (t - base)) cs

/-- Apply a Change list to a document. -/
def applyChanges (text : List Char) (cs : List Change) : List Char :=
  applyChangesFrom 0 text cs

/-- Rust `usize::MAX`, the sentinel initial value of the minimum column. -/
def usizeMax : Nat := 2 ^ 64 - 1

/-- One iteration of `find_line_comment`'s loop (comment.rs lines 28-55).
    State: (commented, to_change, min, margin). -/
def findStep (token text : List Char) (acc : Bool × List Nat × Nat × Nat)
    (line : Nat) : Bool × List Nat × Nat × Nat :=
  let ls := lineSlice text line
  match find_first_non_whitespace_char ls with
  | none => acc
  | some pos =>
    let len := ls.length
    let min' := if pos < acc.2.2.1 then pos else acc.2.2.1
    let fragment := (ls.drop pos).take (Nat.min (pos + utf8Len token) len - pos)
    let commented' := if fragment = token then acc.1 else false
    let margin' := if ls[pos + token.length]? = some ' ' then acc.2.2.2 else 0
    (commented', acc.2.1 ++ [line], min', margin')

/-- helix-core `comment.rs::find_line_comment`.  Note the source measures the
    compared slice with `token.len()` (UTF-8 bytes, `utf8Len`) but the margin
    probe with `token.chars().count()` (characters, `List.length`). -/
def find_line_comment (token text : List Char) (lines : List Nat) :
    Bool × List Nat × Nat × Nat :=
  lines.foldl (findStep token text) (true, [], usizeMax, 1)

/-- The default comment token. -/
def defaultToken : List Char := ['/', '/']

/-- The range-merging loop of `toggle_line_comments` (comment.rs lines 66-76),
    phrased over the document's line count: each inclusive line range is
    clamped below by the running watermark and above by the line count. -/
def mergedLinesN (L : Nat) (selection : List (Nat × Nat)) : List Nat :=
  (selection.foldl
    (fun (acc : List Nat × Nat) r =>
      let s := Nat.min (Nat.max r.1 acc.2) L
      let e := Nat.min (r.2 + 1) L
      (acc.1 ++ List.range' s (e - s), e))
    ([], 0)).1

/-- The merged line set `toggle_line_comments` feeds to `find_line_comment`. -/
def mergedLines (t : List Char) (selection : List (Nat × Nat)) : List Nat :=
  mergedLinesN (lenLines t) selection

/-- helix-core `comment.rs::toggle_line_comments`, returning the Change list
    handed to the Transaction collaborator.  A selection is taken at the
    interface the spec gives it: an ordered list of inclusive
    (startLine, endLine) pairs.  Note the uncomment width uses `token.len()`
    (UTF-8 bytes). -/
def toggle_line_comments (doc : List Char) (selection : List (Nat × Nat))
    (tokenOpt : Option (List Char)) : List Change :=
  let token := tokenOpt.getD defaultToken
  let comment := token ++ [' ']
  let lines := mergedLines doc selection
  let res := find_line_comment token doc lines
  res.2.1.map fun line =>
    let pos := lineToChar doc line + res.2.2.1
    if res.1 then (pos, pos + utf8Len token + res.2.2.2, (none : Option (List Char)))
    else (pos, pos, some comment)

/-- helix-core `comment.rs::get_comment_token_and_position`: fold over the
    candidate tokens, overwriting the result on each exact match at the
    line's indentation column. -/
def get_comment_token_and_position (doc : List Char) (line : Nat)
    (tokens : List (List Char)) : Option (List Char × Nat) :=
  if tokens.isEmpty then none
  else
    match find_first_non_whitespace_char (lineSlice doc line) with
    | none => none
    | some pos =>
      let ls := lineSlice doc line
      tokens.foldl
        (fun result token =>
          let fragment := (ls.drop pos).take (Nat.min (pos + utf8Len token) ls.length - pos)
          if fragment = token then some (token, pos + utf8Len token - 1) else result)
        none

/-- helix-core `comment.rs::handle_comment_continue`: append to the
    caller-owned destination the comment token of the split line, if any,
    followed by alignment whitespace. -/
def handle_comment_continue (doc text : List Char) (lineIdx : Nat)
    (commentTokens : List (List Char)) : List Char :=
  match get_comment_token_and_position doc lineIdx commentTokens with
  | none => text
  | some (token, endPos) =>
    let text1 := text ++ token
    match count_whitespace_after (lineSlice doc lineIdx) endPos with
    | some tw => text1 ++ List.replicate (tw + 1) ' '
    | none => text1 ++ [' ']

/-! Specification-side helper functions used to characterise the fold inside
    `find_line_comment` line by line. -/

/-- Whether a line is blank (no non-whitespace character in its slice). -/
def lineIsBlank (t : List Char) (l : Nat) : Bool :=
  (find_first_non_whitespace_char (lineSlice t l)).isNone

/-- The indentation column of a line (0 for blank lines, unused there). -/
def linePos (t : List Char) (l : Nat) : Nat :=
  (find_first_non_whitespace_char (lineSlice t l)).getD 0

/-- The fragment of a line compared against the token by `find_line_comment`. -/
def lineFragment (token t : List Char) (l : Nat) : List Char :=
  ((lineSlice t l).drop (linePos t l)).take
    (Nat.min (linePos t l + utf8Len token) (lineSlice t l).length - linePos t l)

/-- Whether a line leaves the commented flag alone: blank, or fragment equal
    to the token. -/
def lineCommentOk (token t : List Char) (l : Nat) : Bool :=
  lineIsBlank t l || (lineFragment token t l == token)

/-- Whether a line leaves the margin alone: blank, or a space character right
    after the token position. -/
def lineSpaceOk (token t : List Char) (l : Nat) : Bool :=
  lineIsBlank t l || ((lineSlice t l)[linePos t l + token.length]? == some ' ')

/-- The running-minimum component of `find_line_comment`'s fold. -/
def minFold (t : List Char) (lines : List Nat) (mn : Nat) : Nat :=
  lines.foldl
    (fun a l =>
      if lineIsBlank t l then a
      else if linePos t l < a then linePos t l else a)
    mn

/-- The in-line rewrite a single Change performs on its line: replace the
    character range from m to m + w by rr. -/
def editLine (m w : Nat) (rr : List Char) (L : List Char) : List Char :=
  L.take m ++ rr ++ L.drop (m + w)

/-- Apply the same in-line rewrite to every line whose (absolute) index is in
    S, over the suffix ls of the line list that starts at line off. -/
def editLines (m w : Nat) (rr : List Char) : List (List Char) → Nat → List Nat → List (List Char)
  | ls, _, [] => ls
  | ls, off, l :: S =>
    ls.take (l - off) ++ editLine m w rr (ls.getD (l - off) []) ::
      editLines m w rr (ls.drop (l - off + 1)) (l + 1) S

/-- The flat text of a run of lines, each terminated by a newline. -/
def flatPre : List (List Char) → List Char
  | [] => []
  | L :: A => L ++ '\n' :: flatPre A

/-- Two successive toggles of the same selection with the same token:
    the document text after applying each resulting Change list in turn. -/
def doubleToggle (t : List Char) (sel : List (Nat × Nat))
    (tokenOpt : Option (List Char)) : List Char :=
  applyChanges (applyChanges t (toggle_line_comments t sel tokenOpt))
    (toggle_line_comments (applyChanges t (toggle_line_comments t sel tokenOpt))
      sel tokenOpt)

/-! Validation of the embedding against the Rust unit tests in comment.rs. -/

example : find_line_comment defaultToken ("  1\n\n  2\n  3".toList) [0, 1, 2] =
    (false, [0, 2], 2, 0) := by decide

example :
    applyChanges ("  1\n\n  2\n  3".toList)
      (toggle_line_comments ("  1\n\n  2\n  3".toList) [(0, 3)] none) =
    "  // 1\n\n  // 2\n  // 3".toList := by decide

example :
    applyChanges ("  // 1\n\n  // 2\n  // 3".toList)
      (toggle_line_comments ("  // 1\n\n  // 2\n  // 3".toList) [(0, 3)] none) =
    "  1\n\n  2\n  3".toList := by decide

example :
    applyChanges ("  //1\n\n  //2\n  //3".toList)
      (toggle_line_comments ("  //1\n\n  //2\n  //3".toList) [(0, 3)] none) =
    "  1\n\n  2\n  3".toList := by decide

example :
    applyChanges ("//".toList) (toggle_line_comments ("//".toList) [(0, 0)] none) =
    "".toList := by decide

example :
    get_comment_token_and_position
      ("# 1\n    // 2    \n///3\n/// 4\n//! 5\n//! /// 6\n7 ///\n;8\n//////////// 9".toList)
      5 ["//".toList, "///".toList, "//!".toList, ";".toList] =
    some ("//!".toList, 2) := by decide

example :
    get_comment_token_and_position
      ("# 1\n    // 2    \n///3\n/// 4\n//! 5\n//! /// 6\n7 ///\n;8\n//////////// 9".toList)
      1 ["//".toList, "///".toList, "//!".toList, ";".toList] =
    some ("//".toList, 5) := by decide

example :
    get_comment_token_and_position
      ("# 1\n    // 2    \n///3\n/// 4\n//! 5\n//! /// 6\n7 ///\n;8\n//////////// 9".toList)
      8 ["//".toList, "///".toList, "//!".toList, ";".toList] =
    some ("///".toList, 2) := by decide

example :
    handle_comment_continue ("// 1\n".toList) ("// 1\n".toList) 0
      ["//".toList, "///".toList] = "// 1\n// ".toList := by decide

example :
    handle_comment_continue ("///2\n".toList) ("///2\n".toList) 0
      ["//".toList, "///".toList] = "///2\n/// ".toList := by decide

example :
    handle_comment_continue ("///          4\n".toList) ([] : List Char) 0
      ["//".toList, "///".toList] = "///          ".toList := by decide

/-! Structural lemmas about the line model. -/

theorem splitLines_ne_nil (t : List Char) : splitLines t ≠ [] := by
  cases t with
  | nil => simp [splitLines]
  | cons c t =>
    simp only [splitLines]
    split
    · simp
    · split <;> simp

theorem mem_splitLines_no_newline :
    ∀ {t : List Char} {p : List Char}, p ∈ splitLines t → '\n' ∉ p := by
  intro t
  induction t with
  | nil =>
    intro p hp
    simp [splitLines] at hp
    simp [hp]
  | cons c t ih =>
    intro p hp
    simp only [splitLines] at hp
    by_cases hc : c = '\n'
    · simp [hc] at hp
      rcases hp with hp | hp
      · simp [hp]
      · exact ih hp
    · simp [hc] at hp
      rcases h : splitLines t with _ | ⟨L, ls⟩
      · exact absurd h (splitLines_ne_nil t)
      · rw [h] at hp
        rcases List.mem_cons.mp hp with hp | hp
        · subst hp
          intro hmem
          rcases List.mem_cons.mp hmem with h1 | h1
          · exact hc h1.symm
          · exact ih (h ▸ List.mem_cons_self L ls) h1
        · exact ih (h ▸ List.mem_cons_of_mem L hp)

theorem renderTail_of_ne_nil {ls : List (List Char)} (h : ls ≠ []) :
    renderTail ls = '\n' :: renderLines ls := by
  cases ls with
  | nil => exact absurd rfl h
  | cons L ls => simp [renderTail]

theorem render_cons (L : List Char) (ls : List (List Char)) :
    renderLines (L :: ls) = L ++ renderTail ls := by
  cases ls <;> simp [renderLines, renderTail]

theorem renderLines_splitLines (t : List Char) : renderLines (splitLines t) = t := by
  induction t with
  | nil => simp [splitLines, renderLines]
  | cons c t ih =>
    simp only [splitLines]
    by_cases hc : c = '\n'
    · rw [if_pos hc, render_cons, renderTail_of_ne_nil (splitLines_ne_nil t)]
      simp [ih, hc]
    · simp only [if_neg hc]
      rcases h : splitLines t with _ | ⟨L, ls⟩
      · exact absurd h (splitLines_ne_nil t)
      · rw [render_cons]
        have h2 : renderLines (L :: ls) = t := by rw [← h, ih]
        rw [render_cons] at h2
        simp [h2]

theorem splitLines_of_no_newline {p : List Char} (h : '\n' ∉ p) : splitLines p = [p] := by
  induction p with
  | nil => simp [splitLines]
  | cons c p ih =>
    have hc : c ≠ '\n' := fun hc => h (hc ▸ List.mem_cons_self c p)
    have hp : '\n' ∉ p := fun hp => h (List.mem_cons_of_mem c hp)
    simp only [splitLines, if_neg hc, ih hp]

theorem splitLines_append_newline {p : List Char} (h : '\n' ∉ p) (X : List Char) :
    splitLines (p ++ '\n' :: X) = p :: splitLines X := by
  induction p with
  | nil => simp [splitLines]
  | cons c p ih =>
    have hc : c ≠ '\n' := fun hc => h (hc ▸ List.mem_cons_self c p)
    have hp : '\n' ∉ p := fun hp => h (List.mem_cons_of_mem c hp)
    simp only [List.cons_append, splitLines, if_neg hc, List.append_eq]
    rw [ih hp]

theorem splitLines_renderLines :
    ∀ {ps : List (List Char)}, ps ≠ [] → (∀ p ∈ ps, '\n' ∉ p) →
      splitLines (renderLines ps) = ps := by
  intro ps
  induction ps with
  | nil => intro h; exact absurd rfl h
  | cons p ps ih =>
    intro _ hnl
    cases ps with
    | nil =>
      simp only [renderLines]
      exact splitLines_of_no_newline (hnl p (List.mem_cons_self p []))
    | cons q qs =>
      rw [render_cons, renderTail_of_ne_nil (by simp)]
      rw [splitLines_append_newline (hnl p (List.mem_cons_self p (q :: qs)))]
      rw [ih (by simp) (fun x hx => hnl x (List.mem_cons_of_mem p hx))]

theorem lineToCharL_nil (i : Nat) : lineToCharL [] i = 0 := by
  cases i <;> simp [lineToCharL]

theorem lineToCharL_add (ls : List (List Char)) (k j : Nat) :
    lineToCharL ls (k + j) = lineToCharL ls k + lineToCharL (ls.drop k) j := by
  induction k generalizing ls with
  | zero => simp [lineToCharL]
  | succ k ih =>
    cases ls with
    | nil => simp [lineToCharL_nil]
    | cons L ls =>
      rw [show k + 1 + j = (k + j) + 1 from by omega]
      simp only [lineToCharL, List.drop_succ_cons]
      rw [ih ls]
      omega

theorem lineToCharL_succ (ls : List (List Char)) (l : Nat) (h : l < ls.length) :
    lineToCharL ls (l + 1) = lineToCharL ls l + (ls.getD l []).length + 1 := by
  rw [lineToCharL_add ls l 1]
  rw [List.drop_eq_getElem_cons h]
  simp only [lineToCharL]
  rw [List.getD_eq_getElem?_getD, List.getElem?_eq_getElem h]
  simp
  omega

theorem lineToCharL_mono (ls : List (List Char)) {a b : Nat} (h : a ≤ b) :
    lineToCharL ls a ≤ lineToCharL ls b := by
  have := lineToCharL_add ls a (b - a)
  rw [show a + (b - a) = b from by omega] at this
  omega

theorem flatPre_length (A : List (List Char)) :
    (flatPre A).length = lineToCharL A A.length := by
  induction A with
  | nil => simp [flatPre, lineToCharL]
  | cons L A ih =>
    simp only [flatPre, List.length_cons, lineToCharL, List.length_append,
      List.length_cons, ih]
    omega

theorem lineToCharL_take (ls : List (List Char)) (l : Nat) (h : l ≤ ls.length) :
    lineToCharL (ls.take l) l = lineToCharL ls l := by
  induction l generalizing ls with
  | zero => simp [lineToCharL]
  | succ l ih =>
    cases ls with
    | nil => simp at h
    | cons L ls =>
      simp only [List.take_succ_cons, lineToCharL]
      rw [ih ls (by simpa using h)]

theorem flatPre_take_length (ls : List (List Char)) (l : Nat) (h : l ≤ ls.length) :
    (flatPre (ls.take l)).length = lineToCharL ls l := by
  rw [flatPre_length, List.length_take, Nat.min_eq_left h, lineToCharL_take ls l h]

theorem renderLines_append (A B : List (List Char)) (hB : B ≠ []) :
    renderLines (A ++ B) = flatPre A ++ renderLines B := by
  induction A with
  | nil => simp [flatPre]
  | cons L A ih =>
    rw [List.cons_append, render_cons,
      renderTail_of_ne_nil (by simp [hB]), ih]
    simp [flatPre]

theorem renderLines_split (ls : List (List Char)) (l : Nat) (h : l < ls.length) :
    renderLines ls =
      flatPre (ls.take l) ++ (ls.getD l [] ++ renderTail (ls.drop (l + 1))) := by
  conv_lhs => rw [← List.take_append_drop l ls]
  rw [renderLines_append _ _ (List.ne_nil_of_length_pos (by simp; omega))]
  rw [List.drop_eq_getElem_cons h, render_cons]
  rw [List.getD_eq_getElem?_getD, List.getElem?_eq_getElem h]
  simp

/-! Lemmas about getD over list surgery. -/

theorem getD_append_lt {α : Type} (A B : List α) (d : α) (j : Nat) (h : j < A.length) :
    (A ++ B).getD j d = A.getD j d := by
  rw [List.getD_eq_getElem?_getD, List.getD_eq_getElem?_getD,
    List.getElem?_append_left h]

theorem getD_append_ge {α : Type} (A B : List α) (d : α) (j : Nat) (h : A.length ≤ j) :
    (A ++ B).getD j d = B.getD (j - A.length) d := by
  rw [List.getD_eq_getElem?_getD, List.getD_eq_getElem?_getD,
    List.getElem?_append_right h]

theorem getD_take_lt {α : Type} (l : List α) (d : α) (n j : Nat) (h : j < n) :
    (l.take n).getD j d = l.getD j d := by
  rw [List.getD_eq_getElem?_getD, List.getD_eq_getElem?_getD, List.getElem?_take,
    if_pos h]

theorem getD_drop {α : Type} (l : List α) (d : α) (k j : Nat) :
    (l.drop k).getD j d = l.getD (k + j) d := by
  rw [List.getD_eq_getElem?_getD, List.getD_eq_getElem?_getD, List.getElem?_drop]

/-! The Transaction model applied to line-local Change lists. -/

theorem applyChangesFrom_append (B0 : Nat) (X Y : List Char) (cs : List Change)
    (h : ∀ c ∈ cs, B0 + X.length ≤ c.1 ∧ c.1 ≤ c.2.1) :
    applyChangesFrom B0 (X ++ Y) cs = X ++ applyChangesFrom (B0 + X.length) Y cs := by
  cases cs with
  | nil => simp [applyChangesFrom]
  | cons c cs' =>
    obtain ⟨f, t, r⟩ := c
    obtain ⟨h1, h2⟩ := h (f, t, r) (List.mem_cons_self _ _)
    simp only at h1 h2
    simp only [applyChangesFrom]
    rw [List.take_append_eq_append_take,
      List.take_of_length_le (show X.length ≤ f - B0 from by omega),
      List.drop_append_eq_append_drop,
      List.drop_eq_nil_of_le (show X.length ≤ t - B0 from by omega),
      show f - B0 - X.length = f - (B0 + X.length) from by omega,
      show t - B0 - X.length = t - (B0 + X.length) from by omega]
    simp [List.append_assoc]

theorem editLines_length (m w : Nat) (rr : List Char) :
    ∀ (S : List Nat) (ls : List (List Char)) (off : Nat),
      (∀ l ∈ S, off ≤ l) → List.Pairwise (· < ·) S →
      (∀ l ∈ S, l - off < ls.length) →
      (editLines m w rr ls off S).length = ls.length := by
  intro S
  induction S with
  | nil => intro ls off _ _ _; rfl
  | cons l S ih =>
    intro ls off hoff hpair hbnd
    have hlt : l - off < ls.length := hbnd l (List.mem_cons_self _ _)
    have hol : off ≤ l := hoff l (List.mem_cons_self _ _)
    have hS : ∀ x ∈ S, l < x := (List.pairwise_cons.mp hpair).1
    have hoff' : ∀ x ∈ S, l + 1 ≤ x := fun x hx => hS x hx
    have hpair' : List.Pairwise (· < ·) S := (List.pairwise_cons.mp hpair).2
    have hbnd' : ∀ x ∈ S, x - (l + 1) < (ls.drop (l - off + 1)).length := by
      intro x hx
      have h1 := hbnd x (List.mem_cons_of_mem _ hx)
      have h2 := hS x hx
      simp only [List.length_drop]
      omega
    simp only [editLines, List.length_append, List.length_cons, List.length_take]
    rw [ih _ _ hoff' hpair' hbnd']
    simp only [List.length_drop]
    omega

theorem editLines_getD (m w : Nat) (rr : List Char) :
    ∀ (S : List Nat) (ls : List (List Char)) (off : Nat),
      (∀ l ∈ S, off ≤ l) → List.Pairwise (· < ·) S →
      (∀ l ∈ S, l - off < ls.length) →
      ∀ j, (editLines m w rr ls off S).getD j [] =
        if j + off ∈ S then editLine m w rr (ls.getD j []) else ls.getD j [] := by
  intro S
  induction S with
  | nil =>
    intro ls off _ _ _ j
    simp [editLines]
  | cons l S ih =>
    intro ls off hoff hpair hbnd j
    have hlt : l - off < ls.length := hbnd l (List.mem_cons_self _ _)
    have hol : off ≤ l := hoff l (List.mem_cons_self _ _)
    have hS : ∀ x ∈ S, l < x := (List.pairwise_cons.mp hpair).1
    have hoff' : ∀ x ∈ S, l + 1 ≤ x := fun x hx => hS x hx
    have hpair' : List.Pairwise (· < ·) S := (List.pairwise_cons.mp hpair).2
    have hbnd' : ∀ x ∈ S, x - (l + 1) < (ls.drop (l - off + 1)).length := by
      intro x hx
      have h1 := hbnd x (List.mem_cons_of_mem _ hx)
      have h2 := hS x hx
      simp only [List.length_drop]
      omega
    have hlen : (ls.take (l - off)).length = l - off := by
      simp only [List.length_take]
      omega
    simp only [editLines]
    rcases Nat.lt_trichotomy j (l - off) with hj | hj | hj
    · -- untouched early line
      rw [getD_append_lt _ _ _ _ (by omega), getD_take_lt _ _ _ _ hj]
      have : j + off ∉ l :: S := by
        intro hmem
        rcases List.mem_cons.mp hmem with h1 | h1
        · omega
        · have := hS _ h1; omega
      rw [if_neg this]
    · -- the edited line itself
      rw [getD_append_ge _ _ _ _ (by omega), hlen, hj, Nat.sub_self]
      have hjo : l - off + off = l := by omega
      simp only [List.getD_cons_zero]
      rw [if_pos (show l - off + off ∈ l :: S by rw [hjo]; exact List.mem_cons_self _ _)]
    · -- lines after the edited one: recurse
      rw [getD_append_ge _ _ _ _ (by omega), hlen]
      have hj1 : j - (l - off) = (j - (l - off + 1)) + 1 := by omega
      rw [hj1, List.getD_cons_succ]
      rw [ih _ _ hoff' hpair' hbnd' (j - (l - off + 1))]
      rw [getD_drop]
      have he1 : j - (l - off + 1) + (l + 1) = j + off := by omega
      have he2 : l - off + 1 + (j - (l - off + 1)) = j := by omega
      rw [he1, he2]
      by_cases hmem : j + off ∈ S
      · rw [if_pos hmem, if_pos (List.mem_cons_of_mem _ hmem)]
      · rw [if_neg hmem, if_neg ?hnotmem]
        case hnotmem =>
          intro hc
          rcases List.mem_cons.mp hc with h | h
          · omega
          · exact hmem h

theorem applyChanges_lines (m w : Nat) (r : Option (List Char)) :
    ∀ (S : List Nat) (ls : List (List Char)) (base off : Nat),
      (∀ l ∈ S, off ≤ l) → List.Pairwise (· < ·) S →
      (∀ l ∈ S, l - off < ls.length ∧ m + w ≤ (ls.getD (l - off) []).length) →
      applyChangesFrom base (renderLines ls)
        (S.map fun l => (base + lineToCharL ls (l - off) + m,
                         base + lineToCharL ls (l - off) + m + w, r)) =
      renderLines (editLines m w (r.getD []) ls off S) := by
  intro S
  induction S with
  | nil =>
    intro ls base off _ _ _
    simp [applyChangesFrom, editLines]
  | cons l S ih =>
    intro ls base off hoff hpair hbnd
    obtain ⟨hlt, hmw⟩ := hbnd l (List.mem_cons_self _ _)
    have hol : off ≤ l := hoff l (List.mem_cons_self _ _)
    have hS : ∀ x ∈ S, l < x := (List.pairwise_cons.mp hpair).1
    have hpair' : List.Pairwise (· < ·) S := (List.pairwise_cons.mp hpair).2
    have hoff' : ∀ x ∈ S, l + 1 ≤ x := fun x hx => hS x hx
    have hflat : (flatPre (ls.take (l - off))).length = lineToCharL ls (l - off) :=
      flatPre_take_length ls (l - off) (le_of_lt hlt)
    have hsucc : lineToCharL ls (l - off + 1) =
        lineToCharL ls (l - off) + (ls.getD (l - off) []).length + 1 :=
      lineToCharL_succ ls (l - off) hlt
    have hbndlen : ∀ x ∈ S, x - (l + 1) < (ls.drop (l - off + 1)).length := by
      intro x hx
      have h1 := (hbnd x (List.mem_cons_of_mem _ hx)).1
      have h2 := hS x hx
      simp only [List.length_drop]
      omega
    simp only [List.map_cons, applyChangesFrom]
    rw [show base + lineToCharL ls (l - off) + m - base =
      lineToCharL ls (l - off) + m from by omega]
    rw [show base + lineToCharL ls (l - off) + m + w - base =
      lineToCharL ls (l - off) + (m + w) from by omega]
    rw [renderLines_split ls (l - off) hlt]
    have htake :
        (flatPre (ls.take (l - off)) ++
          (ls.getD (l - off) [] ++ renderTail (ls.drop (l - off + 1)))).take
            (lineToCharL ls (l - off) + m) =
        flatPre (ls.take (l - off)) ++ (ls.getD (l - off) []).take m := by
      rw [List.take_append_eq_append_take,
        List.take_of_length_le
          (show (flatPre (ls.take (l - off))).length ≤ lineToCharL ls (l - off) + m from
            by omega),
        hflat,
        show lineToCharL ls (l - off) + m - lineToCharL ls (l - off) = m from by omega,
        List.take_append_eq_append_take,
        show m - (ls.getD (l - off) []).length = 0 from by omega,
        List.take_zero, List.append_nil]
    have hdrop :
        (flatPre (ls.take (l - off)) ++
          (ls.getD (l - off) [] ++ renderTail (ls.drop (l - off + 1)))).drop
            (lineToCharL ls (l - off) + (m + w)) =
        (ls.getD (l - off) []).drop (m + w) ++ renderTail (ls.drop (l - off + 1)) := by
      rw [List.drop_append_eq_append_drop,
        List.drop_eq_nil_of_le
          (show (flatPre (ls.take (l - off))).length ≤
            lineToCharL ls (l - off) + (m + w) from by omega),
        hflat,
        show lineToCharL ls (l - off) + (m + w) - lineToCharL ls (l - off) = m + w from
          by omega,
        List.nil_append, List.drop_append_eq_append_drop,
        show m + w - (ls.getD (l - off) []).length = 0 from by omega,
        List.drop_zero]
    rw [htake, hdrop]
    by_cases hnil : ls.drop (l - off + 1) = []
    · -- the edited line is the last line
      have hS0 : S = [] := by
        cases S with
        | nil => rfl
        | cons x xs =>
          exfalso
          have hx := hbndlen x (List.mem_cons_self x xs)
          rw [hnil] at hx
          simp at hx
      subst hS0
      simp only [List.map_nil, applyChangesFrom]
      have hE : editLines m w (r.getD []) ls off [l] =
          ls.take (l - off) ++ [editLine m w (r.getD []) (ls.getD (l - off) [])] := by
        simp only [editLines, hnil]
      rw [hE, renderLines_append _ _ (by simp), hnil]
      simp [renderTail, renderLines, editLine, List.append_assoc]
    · -- there are further lines after the edited one
      rw [renderTail_of_ne_nil hnil]
      have hres : (ls.getD (l - off) []).drop (m + w) ++
            '\n' :: renderLines (ls.drop (l - off + 1)) =
          ((ls.getD (l - off) []).drop (m + w) ++ ['\n']) ++
            renderLines (ls.drop (l - off + 1)) := by
        simp
      rw [hres]
      have hXlen : ((ls.getD (l - off) []).drop (m + w) ++ ['\n']).length =
          (ls.getD (l - off) []).length - (m + w) + 1 := by
        simp
      rw [applyChangesFrom_append _ _ _ _ ?hbounds]
      case hbounds =>
        intro c hc
        rcases List.mem_map.mp hc with ⟨x, hxS, rfl⟩
        have hx1 : l + 1 ≤ x := hoff' x hxS
        have hmono : lineToCharL ls (l - off + 1) ≤ lineToCharL ls (x - off) :=
          lineToCharL_mono ls (by omega)
        dsimp only
        constructor
        · omega
        · omega
      rw [hXlen]
      have hmapeq :
          (S.map fun x => (base + lineToCharL ls (x - off) + m,
            base + lineToCharL ls (x - off) + m + w, r)) =
          (S.map fun x =>
            ((base + lineToCharL ls (l - off) + m + w +
                ((ls.getD (l - off) []).length - (m + w) + 1)) +
              lineToCharL (ls.drop (l - off + 1)) (x - (l + 1)) + m,
             (base + lineToCharL ls (l - off) + m + w +
                ((ls.getD (l - off) []).length - (m + w) + 1)) +
              lineToCharL (ls.drop (l - off + 1)) (x - (l + 1)) + m + w, r)) := by
        apply List.map_congr_left
        intro x hx
        have hx1 : l + 1 ≤ x := hoff' x hx
        have hadd := lineToCharL_add ls (l - off + 1) (x - off - (l - off + 1))
        rw [show (l - off + 1) + (x - off - (l - off + 1)) = x - off from by omega] at hadd
        rw [show x - off - (l - off + 1) = x - (l + 1) from by omega] at hadd
        have hbase2 : base + lineToCharL ls (l - off) + m + w +
            ((ls.getD (l - off) []).length - (m + w) + 1) =
            base + lineToCharL ls (l - off + 1) := by omega
        rw [hadd, hbase2]
        simp only [Prod.mk.injEq]
        refine ⟨by omega, by omega, trivial⟩
      rw [hmapeq]
      rw [ih (ls.drop (l - off + 1))
        (base + lineToCharL ls (l - off) + m + w +
          ((ls.getD (l - off) []).length - (m + w) + 1))
        (l + 1) hoff' hpair' ?hbnd2]
      case hbnd2 =>
        intro x hx
        have hx1 : l + 1 ≤ x := hoff' x hx
        refine ⟨hbndlen x hx, ?_⟩
        rw [getD_drop, show l - off + 1 + (x - (l + 1)) = x - off from by omega]
        exact (hbnd x (List.mem_cons_of_mem _ hx)).2
      have hEcons : editLines m w (r.getD []) ls off (l :: S) =
          ls.take (l - off) ++ editLine m w (r.getD []) (ls.getD (l - off) []) ::
            editLines m w (r.getD []) (ls.drop (l - off + 1)) (l + 1) S := by
        simp only [editLines]
      rw [hEcons, renderLines_append _ _ (by simp), render_cons]
      have hEne : editLines m w (r.getD []) (ls.drop (l - off + 1)) (l + 1) S ≠ [] := by
        apply List.ne_nil_of_length_pos
        rw [editLines_length m w (r.getD []) S _ _ hoff' hpair' hbndlen]
        exact List.length_pos.mpr hnil
      rw [renderTail_of_ne_nil hEne]
      simp [editLine, List.append_assoc]

/-! Lemmas about the whitespace scanner. -/

theorem fnw_cons_ws {c : Char} (h : isWhitespaceChar c = true) (l : List Char) :
    find_first_non_whitespace_char (c :: l) =
      (find_first_non_whitespace_char l).map (· + 1) := by
  simp [find_first_non_whitespace_char, h]

theorem fnw_cons_nws {c : Char} (h : isWhitespaceChar c = false) (l : List Char) :
    find_first_non_whitespace_char (c :: l) = some 0 := by
  simp [find_first_non_whitespace_char, h]

theorem fnw_take :
    ∀ {l : List Char} {k : Nat}, find_first_non_whitespace_char l = some k →
      ∀ x ∈ l.take k, isWhitespaceChar x = true := by
  intro l
  induction l with
  | nil => intro k h; simp [find_first_non_whitespace_char] at h
  | cons c l ih =>
    intro k h x hx
    by_cases hc : isWhitespaceChar c = true
    · rw [fnw_cons_ws hc] at h
      rcases Option.map_eq_some'.mp h with ⟨k', hk', hkk⟩
      subst hkk
      rw [List.take_succ_cons] at hx
      rcases List.mem_cons.mp hx with h1 | h1
      · rw [h1]; exact hc
      · exact ih hk' x h1
    · rw [fnw_cons_nws (by simpa using hc)] at h
      have : k = 0 := by injection h with h'; omega
      subst this
      simp at hx

theorem fnw_getElem :
    ∀ {l : List Char} {k : Nat}, find_first_non_whitespace_char l = some k →
      k < l.length ∧ isWhitespaceChar (l.getD k ' ') = false := by
  intro l
  induction l with
  | nil => intro k h; simp [find_first_non_whitespace_char] at h
  | cons c l ih =>
    intro k h
    by_cases hc : isWhitespaceChar c = true
    · rw [fnw_cons_ws hc] at h
      rcases Option.map_eq_some'.mp h with ⟨k', hk', hkk⟩
      subst hkk
      obtain ⟨h1, h2⟩ := ih hk'
      exact ⟨by simp; omega, by rw [List.getD_cons_succ]; exact h2⟩
    · rw [fnw_cons_nws (by simpa using hc)] at h
      have : k = 0 := by injection h with h'; omega
      subst this
      exact ⟨by simp, by simpa using hc⟩

theorem fnw_append_ws :
    ∀ (A : List Char) (c : Char) (B : List Char),
      (∀ a ∈ A, isWhitespaceChar a = true) → isWhitespaceChar c = false →
      find_first_non_whitespace_char (A ++ c :: B) = some A.length := by
  intro A
  induction A with
  | nil => intro c B _ hc; simpa using fnw_cons_nws hc B
  | cons a A ih =>
    intro c B hA hc
    rw [List.cons_append, fnw_cons_ws (hA a (List.mem_cons_self _ _)),
      ih c B (fun x hx => hA x (List.mem_cons_of_mem _ hx)) hc]
    simp

theorem fnw_none_of_ws :
    ∀ (l : List Char), (∀ c ∈ l, isWhitespaceChar c = true) →
      find_first_non_whitespace_char l = none := by
  intro l
  induction l with
  | nil => intro _; rfl
  | cons c l ih =>
    intro h
    rw [fnw_cons_ws (h c (List.mem_cons_self _ _)),
      ih (fun x hx => h x (List.mem_cons_of_mem _ hx))]
    rfl

/-! Characterisation of the fold inside find_line_comment. -/

theorem findStep_blank (token t : List Char) (acc : Bool × List Nat × Nat × Nat)
    (l : Nat) (h : find_first_non_whitespace_char (lineSlice t l) = none) :
    findStep token t acc l = acc := by
  simp [findStep, h]

theorem findStep_nonblank (token t : List Char) (acc : Bool × List Nat × Nat × Nat)
    (l pos : Nat) (h : find_first_non_whitespace_char (lineSlice t l) = some pos) :
    findStep token t acc l =
      (if lineFragment token t l = token then acc.1 else false,
       acc.2.1 ++ [l],
       if pos < acc.2.2.1 then pos else acc.2.2.1,
       if (lineSlice t l)[pos + token.length]? = some ' ' then acc.2.2.2 else 0) := by
  have hlp : linePos t l = pos := by simp [linePos, h]
  simp [findStep, h, lineFragment, hlp]

theorem find_fold_char (token t : List Char) :
    ∀ (L : List Nat) (b : Bool) (tc : List Nat) (mn g : Nat),
      L.foldl (findStep token t) (b, tc, mn, g) =
        (b && L.all (lineCommentOk token t),
         tc ++ L.filter (fun l => !lineIsBlank t l),
         minFold t L mn,
         if L.all (lineSpaceOk token t) then g else 0) := by
  intro L
  induction L with
  | nil => intro b tc mn g; simp [minFold]
  | cons l L ih =>
    intro b tc mn g
    rw [List.foldl_cons]
    cases hpos : find_first_non_whitespace_char (lineSlice t l) with
    | none =>
      have hbl : lineIsBlank t l = true := by simp [lineIsBlank, hpos]
      have h1 : lineCommentOk token t l = true := by simp [lineCommentOk, hbl]
      have h2 : lineSpaceOk token t l = true := by simp [lineSpaceOk, hbl]
      have h3 : minFold t (l :: L) mn = minFold t L mn := by
        simp [minFold, List.foldl_cons, hbl]
      rw [findStep_blank token t _ l hpos, ih, h3]
      simp [List.all_cons, h1, h2, List.filter_cons, hbl]
    | some pos =>
      have hbl : lineIsBlank t l = false := by simp [lineIsBlank, hpos]
      have hlp : linePos t l = pos := by simp [linePos, hpos]
      have h3 : minFold t (l :: L) mn =
          minFold t L (if pos < mn then pos else mn) := by
        simp [minFold, List.foldl_cons, hbl, hlp]
      rw [findStep_nonblank token t _ l pos hpos, ih, h3]
      simp only [Prod.mk.injEq]
      refine ⟨?_, ?_, trivial, ?_⟩
      · by_cases hfr : lineFragment token t l = token
        · simp [hfr, List.all_cons, lineCommentOk, hbl]
        · simp [hfr, List.all_cons, lineCommentOk, hbl]
      · simp [List.filter_cons, hbl]
      · by_cases hsp : (lineSlice t l)[pos + token.length]? = some ' '
        · simp [hsp, List.all_cons, lineSpaceOk, hbl, hlp]
        · have hy : lineSpaceOk token t l = false := by
            simp [lineSpaceOk, hbl, hlp, hsp]
          rw [if_neg hsp]
          simp [List.all_cons, hy]

theorem find_line_comment_eq (token t : List Char) (L : List Nat) :
    find_line_comment token t L =
      (L.all (lineCommentOk token t),
       L.filter (fun l => !lineIsBlank t l),
       minFold t L usizeMax,
       if L.all (lineSpaceOk token t) then 1 else 0) := by
  have h := find_fold_char token t L true [] usizeMax 1
  simpa [find_line_comment] using h

theorem minFold_le_init (t : List Char) :
    ∀ (L : List Nat) (mn : Nat), minFold t L mn ≤ mn := by
  intro L
  induction L with
  | nil => intro mn; simp [minFold]
  | cons l L ih =>
    intro mn
    have hstep : minFold t (l :: L) mn =
        minFold t L (if lineIsBlank t l then mn
          else if linePos t l < mn then linePos t l else mn) := by
      simp [minFold, List.foldl_cons]
    rw [hstep]
    refine le_trans (ih _) ?_
    split_ifs <;> omega

theorem minFold_le_pos (t : List Char) :
    ∀ (L : List Nat) (mn : Nat) (l : Nat), l ∈ L → lineIsBlank t l = false →
      minFold t L mn ≤ linePos t l := by
  intro L
  induction L with
  | nil => intro mn l h; simp at h
  | cons x L ih =>
    intro mn l hmem hbl
    have hstep : minFold t (x :: L) mn =
        minFold t L (if lineIsBlank t x then mn
          else if linePos t x < mn then linePos t x else mn) := by
      simp [minFold, List.foldl_cons]
    rw [hstep]
    rcases List.mem_cons.mp hmem with h | h
    · subst h
      refine le_trans (minFold_le_init t L _) ?_
      rw [if_neg (by simp [hbl])]
      split_ifs <;> omega
    · exact ih _ l h hbl

theorem minFold_const (t : List Char) (m : Nat) :
    ∀ (L : List Nat) (mn : Nat), m ≤ mn →
      (∀ l ∈ L, lineIsBlank t l = false → linePos t l = m) →
      minFold t L mn = if L.any (fun l => !lineIsBlank t l) then m else mn := by
  intro L
  induction L with
  | nil => intro mn _ _; simp [minFold]
  | cons x L ih =>
    intro mn hm hp
    have hstep : minFold t (x :: L) mn =
        minFold t L (if lineIsBlank t x then mn
          else if linePos t x < mn then linePos t x else mn) := by
      simp [minFold, List.foldl_cons]
    rw [hstep]
    by_cases hbl : lineIsBlank t x = true
    · rw [if_pos hbl, ih mn hm (fun y hy => hp y (List.mem_cons_of_mem _ hy))]
      simp [List.any_cons, hbl]
    · have hbl' : lineIsBlank t x = false := by
        cases h : lineIsBlank t x
        · rfl
        · exact absurd h hbl
      have hpx : linePos t x = m := hp x (List.mem_cons_self _ _) hbl'
      have hval : (if lineIsBlank t x then mn
          else if linePos t x < mn then linePos t x else mn) = m := by
        rw [if_neg (by simp [hbl']), hpx]
        split_ifs <;> omega
      rw [hval, ih m le_rfl (fun y hy => hp y (List.mem_cons_of_mem _ hy))]
      simp [List.any_cons, hbl']

theorem sliceLen_ge_content (t : List Char) (l : Nat) :
    ((splitLines t).getD l []).length ≤ (lineSlice t l).length := by
  simp only [lineSlice, List.length_append]
  omega

theorem linePos_lt_content (t : List Char) (l : Nat) (hbl : lineIsBlank t l = false) :
    linePos t l < ((splitLines t).getD l []).length := by
  rcases hpos : find_first_non_whitespace_char (lineSlice t l) with _ | pos
  · simp [lineIsBlank, hpos] at hbl
  · have hlp : linePos t l = pos := by simp [linePos, hpos]
    obtain ⟨hlt, hws⟩ := fnw_getElem hpos
    rw [hlp]
    by_contra hge
    push_neg at hge
    simp only [lineSlice] at hlt hws
    by_cases hif : l + 1 < (splitLines t).length
    · rw [if_pos hif] at hlt hws
      simp only [List.length_append, List.length_cons, List.length_nil] at hlt
      have hpe : pos = ((splitLines t).getD l []).length := by omega
      rw [getD_append_ge _ _ _ _ (by omega), hpe, Nat.sub_self] at hws
      simp only [List.getD_cons_zero] at hws
      have : isWhitespaceChar '\n' = true := by decide
      rw [this] at hws
      exact absurd hws (by simp)
    · rw [if_neg hif] at hlt
      simp only [List.append_nil] at hlt
      omega

theorem fragment_start (token t : List Char) (l : Nat)
    (hascii : utf8Len token = token.length)
    (hbl : lineIsBlank t l = false)
    (hfr : lineFragment token t l = token) :
    linePos t l + token.length ≤ (lineSlice t l).length ∧
    ((lineSlice t l).drop (linePos t l)).take token.length = token := by
  have hplt : linePos t l < (lineSlice t l).length :=
    lt_of_lt_of_le (linePos_lt_content t l hbl) (sliceLen_ge_content t l)
  have hlen : (lineFragment token t l).length = token.length := by rw [hfr]
  simp only [lineFragment, hascii, List.length_take, List.length_drop] at hlen
  have hle : linePos t l + token.length ≤ (lineSlice t l).length := by
    simp only [Nat.min_def] at hlen
    split_ifs at hlen <;> omega
  refine ⟨hle, ?_⟩
  have hmin : Nat.min (linePos t l + token.length) (lineSlice t l).length -
      linePos t l = token.length := by
    have hconv : Nat.min (linePos t l + token.length) (lineSlice t l).length =
        (linePos t l + token.length) ⊓ (lineSlice t l).length := rfl
    rw [hconv, Nat.min_def, if_pos hle]
    omega
  simp only [lineFragment, hascii] at hfr
  rw [hmin] at hfr
  exact hfr

/-! Claim theorems: margin rule, matcher emptiness, continuation. -/

/-- Claim C4: find_line_comment returns margin 0 if and only if at least one
    non-blank input line's character immediately after its token-position
    slice (the character at column indentation + tokenCharLength) is missing
    or is not exactly a single space; otherwise it returns margin 1.  The
    existential ranges over the whole input line set: margin is sticky and
    every non-blank line is scanned, with no early exit. -/
theorem find_line_comment_margin_rule (token t : List Char) (L : List Nat) :
    ((find_line_comment token t L).2.2.2 = 0 ↔
      ∃ l ∈ L, lineIsBlank t l = false ∧
        ¬ (lineSlice t l)[linePos t l + token.length]? = some ' ') ∧
    ((find_line_comment token t L).2.2.2 = 1 ↔
      ¬ ∃ l ∈ L, lineIsBlank t l = false ∧
        ¬ (lineSlice t l)[linePos t l + token.length]? = some ' ') := by
  have key : L.all (lineSpaceOk token t) = true ↔
      ¬ ∃ l ∈ L, lineIsBlank t l = false ∧
        ¬ (lineSlice t l)[linePos t l + token.length]? = some ' ' := by
    rw [List.all_eq_true]
    constructor
    · rintro h ⟨l, hl, hbl, hsp⟩
      have hok := h l hl
      simp only [lineSpaceOk, hbl, Bool.false_or, beq_iff_eq] at hok
      exact hsp hok
    · intro h l hl
      by_cases hbl : lineIsBlank t l = true
      · simp [lineSpaceOk, hbl]
      · have hbl' : lineIsBlank t l = false := by
          cases hb : lineIsBlank t l
          · rfl
          · exact absurd hb hbl
        by_cases hsp : (lineSlice t l)[linePos t l + token.length]? = some ' '
        · simp [lineSpaceOk, hsp]
        · exact absurd ⟨l, hl, hbl', hsp⟩ h
  have hmargin : (find_line_comment token t L).2.2.2 =
      if L.all (lineSpaceOk token t) then 1 else 0 := by
    rw [find_line_comment_eq]
  rw [hmargin]
  by_cases hall : L.all (lineSpaceOk token t) = true
  · rw [if_pos hall]
    constructor
    · constructor
      · intro h; exact absurd h one_ne_zero
      · intro h; exact absurd h (key.mp hall)
    · exact ⟨fun _ => key.mp hall, fun _ => rfl⟩
  · rw [if_neg hall]
    have hex : ∃ l ∈ L, lineIsBlank t l = false ∧
        ¬ (lineSlice t l)[linePos t l + token.length]? = some ' ' := by
      by_contra hc
      exact hall (key.mpr hc)
    constructor
    · exact ⟨fun _ => hex, fun _ => rfl⟩
    · constructor
      · intro h; exact absurd h zero_ne_one
      · intro h; exact absurd hex h

/-- Claim C8: get_comment_token_and_position returns none whenever the
    candidate token list is empty or the addressed line has no non-whitespace
    character, for any line content and any document. -/
theorem get_comment_token_emptiness (doc : List Char) (line : Nat)
    (tokens : List (List Char))
    (h : tokens = [] ∨ ∀ c ∈ lineSlice doc line, isWhitespaceChar c = true) :
    get_comment_token_and_position doc line tokens = none := by
  rcases h with h | h
  · subst h
    simp [get_comment_token_and_position]
  · have hn : find_first_non_whitespace_char (lineSlice doc line) = none :=
      fnw_none_of_ws _ h
    by_cases he : tokens.isEmpty
    · simp [get_comment_token_and_position, he]
    · simp [get_comment_token_and_position, he, hn]

/-- Witness for claim C8 at a concrete all-whitespace line. -/
theorem get_comment_token_emptiness_witness :
    get_comment_token_and_position ("   ".toList) 0 [defaultToken] = none :=
  get_comment_token_emptiness ("   ".toList) 0 [defaultToken] (Or.inr (by decide))

/-- Claim C10: handle_comment_continue only appends to its caller-owned
    destination: the prior content of the destination is preserved unchanged
    as a prefix of the result, and exactly the continuation text the function
    computes for an empty destination (possibly empty) follows it. -/
theorem handle_comment_continue_frame (doc text : List Char) (lineIdx : Nat)
    (tokens : List (List Char)) :
    handle_comment_continue doc text lineIdx tokens =
      text ++ handle_comment_continue doc [] lineIdx tokens := by
  rcases hg : get_comment_token_and_position doc lineIdx tokens with _ | ⟨tok, ep⟩
  · simp [handle_comment_continue, hg]
  · rcases hc : count_whitespace_after (lineSlice doc lineIdx) ep with _ | tw <;>
      simp [handle_comment_continue, hg, hc]

/-- Claim C9: when the Token Matcher finds a match, handle_comment_continue
    appends exactly the matched token followed by alignment whitespace: one
    space when the whitespace run immediately after the token's last
    character is empty (non-whitespace or end of line follows), and otherwise
    as many spaces as that run is long (the collaborator count plus one);
    when there is no match, nothing is appended.  The concrete conjunct is
    the spec's scenario: continuing "// 1" with tokens ["//", "///"] appends
    "// ". -/
theorem handle_comment_continue_alignment (doc text : List Char) (lineIdx : Nat)
    (tokens : List (List Char)) :
    (get_comment_token_and_position doc lineIdx tokens = none →
      handle_comment_continue doc text lineIdx tokens = text) ∧
    (∀ tok ep, get_comment_token_and_position doc lineIdx tokens = some (tok, ep) →
      handle_comment_continue doc text lineIdx tokens =
        text ++ tok ++ List.replicate
          (if (((lineSlice doc lineIdx).drop (ep + 1)).takeWhile
              isWhitespaceChar).length = 0 then 1
           else (((lineSlice doc lineIdx).drop (ep + 1)).takeWhile
              isWhitespaceChar).length) ' ') ∧
    handle_comment_continue ("// 1\n".toList) ("// 1\n".toList) 0
      ["//".toList, "///".toList] = "// 1\n// ".toList := by
  refine ⟨?_, ?_, by decide⟩
  · intro h
    simp [handle_comment_continue, h]
  · intro tok ep h
    by_cases hr : (((lineSlice doc lineIdx).drop (ep + 1)).takeWhile
        isWhitespaceChar).length = 0
    · rw [if_pos hr]
      simp [handle_comment_continue, h, count_whitespace_after, hr]
    · rw [if_neg hr]
      simp only [handle_comment_continue, h, count_whitespace_after, if_neg hr]
      rw [show (((lineSlice doc lineIdx).drop (ep + 1)).takeWhile
          isWhitespaceChar).length - 1 + 1 =
        (((lineSlice doc lineIdx).drop (ep + 1)).takeWhile
          isWhitespaceChar).length from by omega]

/-! The overwrite-fold of the Token Matcher keeps the last match. -/

theorem matcher_foldl (doc : List Char) (line pos : Nat) :
    ∀ (tokens : List (List Char)) (acc : Option (List Char × Nat)),
      tokens.foldl (fun result token =>
        if ((lineSlice doc line).drop pos).take
            (Nat.min (pos + utf8Len token) (lineSlice doc line).length - pos) = token
        then some (token, pos + utf8Len token - 1) else result) acc =
      match (tokens.filter (fun token => decide
          (((lineSlice doc line).drop pos).take
            (Nat.min (pos + utf8Len token) (lineSlice doc line).length - pos) =
            token))).getLast? with
      | some token => some (token, pos + utf8Len token - 1)
      | none => acc := by
  intro tokens
  induction tokens with
  | nil => intro acc; simp
  | cons x ts ih =>
    intro acc
    rw [List.foldl_cons, ih, List.filter_cons]
    by_cases hx : ((lineSlice doc line).drop pos).take
        (Nat.min (pos + utf8Len x) (lineSlice doc line).length - pos) = x
    · rw [if_pos (show (decide (((lineSlice doc line).drop pos).take
          (Nat.min (pos + utf8Len x) (lineSlice doc line).length - pos) = x)) = true
          from by simpa using hx)]
      rw [if_pos hx]
      rcases hfl : ts.filter (fun token => decide
          (((lineSlice doc line).drop pos).take
            (Nat.min (pos + utf8Len token) (lineSlice doc line).length - pos) =
            token)) with _ | ⟨y, ys⟩
      · simp
      · rcases hgl : (y :: ys).getLast? with _ | z
        · simp at hgl
        · simp [hgl]
    · rw [if_neg (show ¬ (decide (((lineSlice doc line).drop pos).take
          (Nat.min (pos + utf8Len x) (lineSlice doc line).length - pos) = x)) = true
          from by simpa using hx)]
      rw [if_neg hx]

/-- Claim C5 (amended): for candidate tokens whose UTF-8 byte length equals
    their character count, and a line with a first non-whitespace column,
    get_comment_token_and_position iterates every candidate token in the
    supplied order with no early exit, overwriting the result on each exact
    match at the indentation column with (token,
    indentColumn + tokenCharLength - 1); the final result is the last
    matching token in iteration order, not necessarily the longest match.
    The concrete conjunct is the spec's example: tokens
    ["//", "///", "//!", ";"] on line "//! /// 6" yield ("//!", 2), the last
    matching token. -/
theorem get_comment_token_last_match (doc : List Char) (line : Nat)
    (tokens : List (List Char))
    (hascii : ∀ tok ∈ tokens, utf8Len tok = tok.length) :
    (get_comment_token_and_position doc line tokens =
      match find_first_non_whitespace_char (lineSlice doc line) with
      | none => none
      | some pos =>
        ((tokens.filter (fun token => decide
            (((lineSlice doc line).drop pos).take
              (Nat.min (pos + token.length) (lineSlice doc line).length - pos) =
              token))).getLast?).map
          (fun token => (token, pos + token.length - 1))) ∧
    get_comment_token_and_position ("//! /// 6".toList) 0
      ["//".toList, "///".toList, "//!".toList, ";".toList] =
      some ("//!".toList, 2) := by
  constructor
  · have hbyte : get_comment_token_and_position doc line tokens =
        match find_first_non_whitespace_char (lineSlice doc line) with
        | none => none
        | some pos =>
          ((tokens.filter (fun token => decide
              (((lineSlice doc line).drop pos).take
                (Nat.min (pos + utf8Len token) (lineSlice doc line).length - pos) =
                token))).getLast?).map
            (fun token => (token, pos + utf8Len token - 1)) := by
      by_cases he : tokens.isEmpty
      · have hte : tokens = [] := by
          cases tokens
          · rfl
          · simp at he
        subst hte
        simp only [get_comment_token_and_position]
        cases find_first_non_whitespace_char (lineSlice doc line) <;> simp
      · simp only [get_comment_token_and_position, he, Bool.false_eq_true, if_false]
        cases hpos : find_first_non_whitespace_char (lineSlice doc line) with
        | none => simp
        | some pos =>
          show tokens.foldl _ none =
            ((tokens.filter (fun token => decide
                (((lineSlice doc line).drop pos).take
                  (Nat.min (pos + utf8Len token) (lineSlice doc line).length - pos) =
                  token))).getLast?).map
              (fun token => (token, pos + utf8Len token - 1))
          rw [matcher_foldl doc line pos tokens none]
          rcases hgl : (tokens.filter (fun token => decide
              (((lineSlice doc line).drop pos).take
                (Nat.min (pos + utf8Len token) (lineSlice doc line).length - pos) =
                token))).getLast? with _ | tok
          · simp [hgl]
          · simp [hgl]
    rw [hbyte]
    cases hpos : find_first_non_whitespace_char (lineSlice doc line) with
    | none => rfl
    | some pos =>
      have hfil : tokens.filter (fun token => decide
          (((lineSlice doc line).drop pos).take
            (Nat.min (pos + utf8Len token) (lineSlice doc line).length - pos) =
            token)) =
          tokens.filter (fun token => decide
          (((lineSlice doc line).drop pos).take
            (Nat.min (pos + token.length) (lineSlice doc line).length - pos) =
            token)) := by
        apply List.filter_congr
        intro tok htok
        rw [hascii tok htok]
      dsimp only
      rw [hfil]
      rcases hgl : (tokens.filter (fun token => decide
          (((lineSlice doc line).drop pos).take
            (Nat.min (pos + token.length) (lineSlice doc line).length - pos) =
            token))).getLast? with _ | tok
      · rfl
      · have htok : tok ∈ tokens := by
          obtain ⟨hne, heq⟩ := List.mem_getLast?_eq_getLast hgl
          have hmem := heq ▸ List.getLast_mem hne
          exact (List.mem_filter.mp hmem).1
        simp only [Option.map_some']
        rw [hascii tok htok]
  · decide

/-- Claim C3 (divergence witness): the token-width computations at
    comment.rs lines 38 and 90 use the token's UTF-8 byte length, not its
    character count.  For the two-byte one-character token the classifier
    compares a two-character slice (so the commented line "£ x" is classified
    uncommented), and the uncomment Change for document "a\n£" deletes
    2 + margin characters where the token has 1 character. -/
theorem token_width_byte_semantics :
    utf8Len ("£".toList) = 2 ∧ ("£".toList).length = 1 ∧
    find_line_comment ("£".toList) ("£ x".toList) [0] = (false, [0], 0, 1) ∧
    toggle_line_comments ("a\n£".toList) [(1, 1)] (some ("£".toList)) =
      [(2, 4, none)] := by
  refine ⟨by decide, by decide, by decide, by decide⟩

/-- Claim C2 (divergence witness): with uneven comment indentation the
    classifier marks the set ["  //a", "//b"] commented, yet the uncomment
    edit deletes two characters at minIndentColumn 0 of line 0, which removes
    the indentation "  " rather than the token, leaving "//a" instead of the
    pre-comment content "  a". -/
theorem round_trip_deletion_uneven_indent :
    find_line_comment ("//".toList) ("  //a\n//b".toList) [0, 1] =
      (true, [0, 1], 0, 0) ∧
    applyChanges ("  //a\n//b".toList)
      (toggle_line_comments ("  //a\n//b".toList) [(0, 1)] none) =
      "//a\nb".toList := by
  exact ⟨by decide, by decide⟩

/-- Witness for claim C9: continuing a long-run comment line appends the
    token plus run-many alignment spaces. -/
theorem handle_comment_continue_alignment_witness :
    handle_comment_continue ("///          4\n".toList) ([] : List Char) 0
      ["//".toList, "///".toList] = "///          ".toList := by
  have h := (handle_comment_continue_alignment ("///          4\n".toList) [] 0
    ["//".toList, "///".toList]).2.1 ("///".toList) 2 (by decide)
  rw [h]
  decide

/-! Blank lines are neutral throughout the classifier and the toggle. -/

theorem all_filter_nonblank (t : List Char) (p : Nat → Bool)
    (hp : ∀ l, lineIsBlank t l = true → p l = true) :
    ∀ L : List Nat, L.all p = (L.filter (fun l => !lineIsBlank t l)).all p := by
  intro L
  induction L with
  | nil => rfl
  | cons l L ih =>
    by_cases hbl : lineIsBlank t l = true
    · rw [List.all_cons, hp l hbl, List.filter_cons, if_neg (by simp [hbl])]
      simp [ih]
    · have hbl' : lineIsBlank t l = false := by
        cases h : lineIsBlank t l
        · rfl
        · exact absurd h hbl
      rw [List.filter_cons, if_pos (by simp [hbl'])]
      simp [List.all_cons, ih]

theorem minFold_filter (t : List Char) :
    ∀ (L : List Nat) (mn : Nat),
      minFold t L mn = minFold t (L.filter (fun l => !lineIsBlank t l)) mn := by
  intro L
  induction L with
  | nil => intro mn; rfl
  | cons l L ih =>
    intro mn
    have hstep : minFold t (l :: L) mn =
        minFold t L (if lineIsBlank t l then mn
          else if linePos t l < mn then linePos t l else mn) := by
      simp [minFold, List.foldl_cons]
    by_cases hbl : lineIsBlank t l = true
    · rw [hstep, if_pos hbl, List.filter_cons, if_neg (by simp [hbl]), ← ih]
    · have hbl' : lineIsBlank t l = false := by
        cases h : lineIsBlank t l
        · rfl
        · exact absurd h hbl
      rw [hstep, List.filter_cons,
        if_pos (show (!lineIsBlank t l) = true from by simp [hbl'])]
      have hstep2 : minFold t (l :: L.filter (fun x => !lineIsBlank t x)) mn =
          minFold t (L.filter (fun x => !lineIsBlank t x))
            (if lineIsBlank t l then mn
              else if linePos t l < mn then linePos t l else mn) := by
        simp [minFold, List.foldl_cons]
      rw [hstep2, ← ih]

/-- Claim C7: blank lines in the input set never appear in linesToChange and
    never affect the commented flag, the minimum indentation column or the
    margin computed by find_line_comment (the whole result is unchanged when
    blanks are dropped from the input); consequently a selection covering
    only blank lines yields an empty Change list and applying the resulting
    Transaction is a no-op. -/
theorem blank_line_neutrality (t : List Char) :
    (∀ (token : List Char) (L : List Nat),
      find_line_comment token t L =
        find_line_comment token t (L.filter (fun l => !lineIsBlank t l)) ∧
      ∀ l ∈ (find_line_comment token t L).2.1, lineIsBlank t l = false) ∧
    (∀ (sel : List (Nat × Nat)) (tokenOpt : Option (List Char)),
      (∀ l ∈ mergedLines t sel, lineIsBlank t l = true) →
      toggle_line_comments t sel tokenOpt = [] ∧
      applyChanges t (toggle_line_comments t sel tokenOpt) = t) := by
  constructor
  · intro token L
    constructor
    · rw [find_line_comment_eq, find_line_comment_eq]
      have h1 : L.all (lineCommentOk token t) =
          (L.filter (fun l => !lineIsBlank t l)).all (lineCommentOk token t) :=
        all_filter_nonblank t _ (fun l hbl => by simp [lineCommentOk, hbl]) L
      have h2 : L.all (lineSpaceOk token t) =
          (L.filter (fun l => !lineIsBlank t l)).all (lineSpaceOk token t) :=
        all_filter_nonblank t _ (fun l hbl => by simp [lineSpaceOk, hbl]) L
      have h3 : (L.filter (fun l => !lineIsBlank t l)).filter
          (fun l => !lineIsBlank t l) = L.filter (fun l => !lineIsBlank t l) := by
        rw [List.filter_filter]
        apply List.filter_congr
        intro x _
        simp
      have h4 := minFold_filter t L usizeMax
      rw [h1, h2, h3, h4]
    · intro l hl
      have heq : (find_line_comment token t L).2.1 =
          L.filter (fun l => !lineIsBlank t l) := by
        rw [find_line_comment_eq]
      rw [heq] at hl
      have := (List.mem_filter.mp hl).2
      simpa using this
  · intro sel tokenOpt hall
    have hto : toggle_line_comments t sel tokenOpt = [] := by
      have hchg : (find_line_comment (tokenOpt.getD defaultToken) t
          (mergedLines t sel)).2.1 = [] := by
        have heq : (find_line_comment (tokenOpt.getD defaultToken) t
            (mergedLines t sel)).2.1 =
            (mergedLines t sel).filter (fun l => !lineIsBlank t l) := by
          rw [find_line_comment_eq]
        rw [heq, List.filter_eq_nil_iff]
        intro l hl
        simp [hall l hl]
      simp only [toggle_line_comments, hchg, List.map_nil]
    refine ⟨hto, ?_⟩
    rw [hto]
    rfl

/-- Witness for claim C7 on a two-blank-line document. -/
theorem blank_line_neutrality_witness :
    toggle_line_comments ("\n\n".toList) [(0, 1)] none = [] ∧
    applyChanges ("\n\n".toList) (toggle_line_comments ("\n\n".toList) [(0, 1)] none) =
      "\n\n".toList :=
  (blank_line_neutrality ("\n\n".toList)).2 [(0, 1)] none (by decide)

/-! The watermark merge produces a strictly increasing, in-bounds line set
    when the selection's line ranges are well-formed and non-overlapping. -/

theorem mergedLinesN_go (Llen : Nat) :
    ∀ (sel : List (Nat × Nat)) (acc0 : List Nat × Nat),
      (∀ x ∈ acc0.1, x < acc0.2) → List.Pairwise (· < ·) acc0.1 →
      acc0.2 ≤ Llen →
      List.Chain' (fun a b => a.2 ≤ b.1) sel →
      (∀ r ∈ sel, r.1 ≤ r.2) →
      (∀ r, sel.head? = some r → acc0.2 ≤ r.2 + 1) →
      (∀ x ∈ (sel.foldl
          (fun (acc : List Nat × Nat) r =>
            let s := Nat.min (Nat.max r.1 acc.2) Llen
            let e := Nat.min (r.2 + 1) Llen
            (acc.1 ++ List.range' s (e - s), e)) acc0).1,
        x < (sel.foldl
          (fun (acc : List Nat × Nat) r =>
            let s := Nat.min (Nat.max r.1 acc.2) Llen
            let e := Nat.min (r.2 + 1) Llen
            (acc.1 ++ List.range' s (e - s), e)) acc0).2) ∧
      List.Pairwise (· < ·) (sel.foldl
          (fun (acc : List Nat × Nat) r =>
            let s := Nat.min (Nat.max r.1 acc.2) Llen
            let e := Nat.min (r.2 + 1) Llen
            (acc.1 ++ List.range' s (e - s), e)) acc0).1 ∧
      (sel.foldl
          (fun (acc : List Nat × Nat) r =>
            let s := Nat.min (Nat.max r.1 acc.2) Llen
            let e := Nat.min (r.2 + 1) Llen
            (acc.1 ++ List.range' s (e - s), e)) acc0).2 ≤ Llen := by
  intro sel
  induction sel with
  | nil =>
    intro acc0 h1 h2 h3 _ _ _
    exact ⟨h1, h2, h3⟩
  | cons r sel ih =>
    intro acc0 h1 h2 h3 hchain hwf hhead
    rw [List.foldl_cons]
    have hwm_e : acc0.2 ≤ Nat.min (r.2 + 1) Llen :=
      le_min (hhead r rfl) h3
    have hwm_s : acc0.2 ≤ Nat.min (Nat.max r.1 acc0.2) Llen :=
      le_min (le_trans (le_max_right r.1 acc0.2) (le_refl _)) h3
    have hs_le : Nat.min (Nat.max r.1 acc0.2) Llen ≤ Llen := min_le_right _ _
    have he_le : Nat.min (r.2 + 1) Llen ≤ Llen := min_le_right _ _
    have he_r : Nat.min (r.2 + 1) Llen ≤ r.2 + 1 := min_le_left _ _
    refine ih (acc0.1 ++ List.range' (Nat.min (Nat.max r.1 acc0.2) Llen)
        (Nat.min (r.2 + 1) Llen - Nat.min (Nat.max r.1 acc0.2) Llen),
        Nat.min (r.2 + 1) Llen) ?_ ?_ ?_ hchain.tail ?_ ?_
    · -- all elements below the new watermark
      intro x hx
      show x < Nat.min (r.2 + 1) Llen
      rcases List.mem_append.mp hx with hx | hx
      · exact lt_of_lt_of_le (h1 x hx) hwm_e
      · rcases List.mem_range'.mp hx with ⟨i, hi, hxe⟩
        omega
    · -- still strictly sorted
      show List.Pairwise (· < ·) (acc0.1 ++ List.range' _ _)
      rw [List.pairwise_append]
      refine ⟨h2, List.pairwise_lt_range' _ _, ?_⟩
      intro a ha b hb
      rcases List.mem_range'.mp hb with ⟨i, hi, hbe⟩
      subst hbe
      have hwa := h1 a ha
      have hws : acc0.2 ≤ Nat.min (Nat.max r.1 acc0.2) Llen := hwm_s
      omega
    · exact he_le
    · intro x hx
      exact hwf x (List.mem_cons_of_mem _ hx)
    · -- the next head's end bounds the new watermark
      intro r' hr'
      cases sel with
      | nil => simp at hr'
      | cons r2 sel2 =>
        have hr2 : r2 = r' := by
          simp at hr'
          exact hr'
        subst hr2
        have hcc := List.chain'_cons.mp hchain
        have hwfr2 : r2.1 ≤ r2.2 :=
          hwf r2 (List.mem_cons_of_mem _ (List.mem_cons_self _ _))
        have := hcc.1
        omega

theorem mergedLines_sorted_bounded (t : List Char) (sel : List (Nat × Nat))
    (hchain : List.Chain' (fun a b => a.2 ≤ b.1) sel)
    (hwf : ∀ r ∈ sel, r.1 ≤ r.2) :
    List.Pairwise (· < ·) (mergedLines t sel) ∧
    ∀ x ∈ mergedLines t sel, x < lenLines t := by
  obtain ⟨hb, hp, hl⟩ := mergedLinesN_go (lenLines t) sel ([], 0)
    (by intro x hx; simp at hx) List.Pairwise.nil (Nat.zero_le _)
    hchain hwf (fun r _ => Nat.zero_le _)
  exact ⟨hp, fun x hx => lt_of_lt_of_le (hb x hx) hl⟩

/-- Claim C6 (amended): for every document and token whose UTF-8 byte length
    equals its character count, and every selection of well-formed inclusive
    line ranges in which each range's end line is at most the next range's
    start line, the Change list assembled by toggle_line_comments is ordered
    by strictly ascending start position and no two Changes overlap (each
    Change's end is at most the next Change's start, and every Change has
    start at most end). -/
theorem toggle_changes_sorted_disjoint (t : List Char) (sel : List (Nat × Nat))
    (tokenOpt : Option (List Char))
    (hchain : List.Chain' (fun a b => a.2 ≤ b.1) sel)
    (hwf : ∀ r ∈ sel, r.1 ≤ r.2)
    (hascii : utf8Len (tokenOpt.getD defaultToken) =
      (tokenOpt.getD defaultToken).length) :
    (∀ c ∈ toggle_line_comments t sel tokenOpt, c.1 ≤ c.2.1) ∧
    List.Pairwise (fun c d : Change => c.2.1 ≤ d.1 ∧ c.1 < d.1)
      (toggle_line_comments t sel tokenOpt) := by
  obtain ⟨hsort, hbound⟩ := mergedLines_sorted_bounded t sel hchain hwf
  have htoggle : toggle_line_comments t sel tokenOpt =
      (find_line_comment (tokenOpt.getD defaultToken) t (mergedLines t sel)).2.1.map
        (fun line =>
          if (find_line_comment (tokenOpt.getD defaultToken) t
              (mergedLines t sel)).1 = true then
            (lineToChar t line +
              (find_line_comment (tokenOpt.getD defaultToken) t
                (mergedLines t sel)).2.2.1,
             lineToChar t line +
              (find_line_comment (tokenOpt.getD defaultToken) t
                (mergedLines t sel)).2.2.1 +
               utf8Len (tokenOpt.getD defaultToken) +
               (find_line_comment (tokenOpt.getD defaultToken) t
                (mergedLines t sel)).2.2.2,
             (none : Option (List Char)))
          else
            (lineToChar t line +
              (find_line_comment (tokenOpt.getD defaultToken) t
                (mergedLines t sel)).2.2.1,
             lineToChar t line +
              (find_line_comment (tokenOpt.getD defaultToken) t
                (mergedLines t sel)).2.2.1,
             some (tokenOpt.getD defaultToken ++ [' ']))) := rfl
  rw [htoggle]
  set tk := tokenOpt.getD defaultToken with htk
  set F := find_line_comment tk t (mergedLines t sel) with hFdef
  have hS : F.2.1 = (mergedLines t sel).filter (fun l => !lineIsBlank t l) := by
    rw [hFdef, find_line_comment_eq]
  have hSsort : List.Pairwise (· < ·) F.2.1 := by
    rw [hS]; exact hsort.filter _
  have hSbound : ∀ x ∈ F.2.1, x < (splitLines t).length := by
    intro x hx
    rw [hS] at hx
    exact hbound x (List.mem_filter.mp hx).1
  have hSnb : ∀ x ∈ F.2.1, lineIsBlank t x = false := by
    intro x hx
    rw [hS] at hx
    simpa using (List.mem_filter.mp hx).2
  have hSmem : ∀ x ∈ F.2.1, x ∈ mergedLines t sel := by
    intro x hx
    rw [hS] at hx
    exact (List.mem_filter.mp hx).1
  constructor
  · intro c hc
    rcases List.mem_map.mp hc with ⟨l, _, rfl⟩
    split_ifs <;> dsimp only <;> omega
  · apply List.pairwise_map.mpr
    refine List.Pairwise.imp_of_mem ?_ hSsort
    intro a b ha hb hab
    have hbl2 : b < (splitLines t).length := hSbound b hb
    have hal : a < (splitLines t).length := by omega
    have hsucc := lineToCharL_succ (splitLines t) a hal
    have hmono : lineToCharL (splitLines t) (a + 1) ≤ lineToCharL (splitLines t) b :=
      lineToCharL_mono _ (by omega)
    by_cases hC : F.1 = true
    · -- commented: the Changes are deletions confined to their own lines
      have hCall : (mergedLines t sel).all (lineCommentOk tk t) = true := by
        rw [hFdef, find_line_comment_eq] at hC
        exact hC
      have hfra : lineFragment tk t a = tk := by
        have hok := List.all_eq_true.mp hCall a (hSmem a ha)
        simp [lineCommentOk, hSnb a ha] at hok
        exact hok
      obtain ⟨hlea, -⟩ := fragment_start tk t a hascii (hSnb a ha) hfra
      have hslice : (lineSlice t a).length = ((splitLines t).getD a []).length + 1 := by
        simp only [lineSlice]
        rw [if_pos (show a + 1 < (splitLines t).length from by omega)]
        simp
      have hmv : F.2.2.2 = if (mergedLines t sel).all (lineSpaceOk tk t) then 1 else 0 := by
        rw [hFdef, find_line_comment_eq]
      have hmarg : F.2.2.2 = 0 ∨ (F.2.2.2 = 1 ∧
          linePos t a + tk.length < ((splitLines t).getD a []).length) := by
        by_cases hall : (mergedLines t sel).all (lineSpaceOk tk t) = true
        · right
          refine ⟨by rw [hmv, if_pos hall], ?_⟩
          have hsp := List.all_eq_true.mp hall a (hSmem a ha)
          simp [lineSpaceOk, hSnb a ha] at hsp
          by_contra hge
          push_neg at hge
          rcases (show linePos t a + tk.length = ((splitLines t).getD a []).length ∨
              linePos t a + tk.length = ((splitLines t).getD a []).length + 1 from
              by omega) with hpe | hpe
          · have hnl : (lineSlice t a)[linePos t a + tk.length]? = some '\n' := by
              simp only [lineSlice]
              rw [if_pos (show a + 1 < (splitLines t).length from by omega)]
              rw [hpe, List.getElem?_append_right (le_refl _)]
              simp
            rw [hnl] at hsp
            have : ('\n' : Char) = ' ' := by injection hsp
            exact absurd this (by decide)
          · have hnone : (lineSlice t a)[linePos t a + tk.length]? = none := by
              apply List.getElem?_eq_none
              omega
            rw [hnone] at hsp
            simp at hsp
        · left
          rw [hmv, if_neg hall]
      simp only [if_pos hC]
      simp only [lineToChar]
      rw [hascii]
      constructor
      · rcases hmarg with h0 | ⟨h1', h2'⟩
        · rw [h0]; omega
        · rw [h1']; omega
      · omega
    · -- uncommented: the Changes are insertions at strictly ascending points
      simp only [if_neg hC]
      simp only [lineToChar]
      exact ⟨by omega, by omega⟩

/-- Counterexample for claim C6 as stated: with ranges sorted ascending by
    start but overlapping (the spec's data model allows overlap), the
    watermark regresses and the Change list is no longer sorted or disjoint;
    and even with a single range, a token whose byte length exceeds its
    character count yields two overlapping deletions. -/
theorem toggle_changes_overlap_cex :
    List.Pairwise (fun a b : Nat × Nat => a.1 ≤ b.1) [(0, 5), (1, 2), (2, 4)] ∧
    ¬ List.Pairwise (fun c d : Change => c.2.1 ≤ d.1 ∧ c.1 < d.1)
        (toggle_line_comments ("a\nb\nc\nd\ne\nf".toList)
          [(0, 5), (1, 2), (2, 4)] none) ∧
    List.Chain' (fun a b : Nat × Nat => a.2 ≤ b.1) [((0 : Nat), (2 : Nat))] ∧
    ¬ List.Pairwise (fun c d : Change => c.2.1 ≤ d.1 ∧ c.1 < d.1)
        (toggle_line_comments ("£\n£\n".toList) [(0, 2)] (some ("£\n".toList))) :=
  ⟨by decide, by decide, List.chain'_singleton _, by decide⟩

/-- Witness for the amended claim C6 on a concrete commented document. -/
theorem toggle_changes_sorted_disjoint_witness :
    (∀ c ∈ toggle_line_comments ("//a\n//b".toList) [(0, 0), (1, 1)] none,
      c.1 ≤ c.2.1) ∧
    List.Pairwise (fun c d : Change => c.2.1 ≤ d.1 ∧ c.1 < d.1)
      (toggle_line_comments ("//a\n//b".toList) [(0, 0), (1, 1)] none) :=
  toggle_changes_sorted_disjoint ("//a\n//b".toList) [(0, 0), (1, 1)] none
    (List.chain'_cons.mpr ⟨by decide, List.chain'_singleton _⟩)
    (by decide) (by decide)

/-! Facts about lines after the comment-insertion edit. -/

theorem no_newline_of_getD (ps : List (List Char))
    (h : ∀ j, j < ps.length → '\n' ∉ ps.getD j []) : ∀ p ∈ ps, '\n' ∉ p := by
  intro p hp
  rcases List.mem_iff_getElem.mp hp with ⟨j, hj, rfl⟩
  have := h j hj
  rw [List.getD_eq_getElem?_getD, List.getElem?_eq_getElem hj] at this
  simpa using this

theorem inserted_line_shape (Lc tk : List Char) (c : Char) (tkR : List Char)
    (m : Nat) (NL : List Char) (htk : tk = c :: tkR) :
    (Lc.take m ++ (tk ++ [' ']) ++ Lc.drop m) ++ NL =
      Lc.take m ++ c :: (tkR ++ ' ' :: (Lc.drop m ++ NL)) := by
  simp [htk, List.append_assoc]

theorem inserted_line_fnw (Lc tk : List Char) (c : Char) (tkR : List Char)
    (m : Nat) (NL : List Char) (htk : tk = c :: tkR)
    (hcw : isWhitespaceChar c = false)
    (hws : ∀ x ∈ Lc.take m, isWhitespaceChar x = true)
    (hm : m ≤ Lc.length) :
    find_first_non_whitespace_char ((Lc.take m ++ (tk ++ [' ']) ++ Lc.drop m) ++ NL) =
      some m := by
  rw [inserted_line_shape Lc tk c tkR m NL htk]
  have h := fnw_append_ws (Lc.take m) c (tkR ++ ' ' :: (Lc.drop m ++ NL)) hws hcw
  rw [h, List.length_take]
  congr 1
  omega

theorem take_append_len {α : Type} (A B : List α) (m : Nat) (h : A.length = m) :
    (A ++ B).take m = A := by
  rw [← h, List.take_left]

theorem drop_append_len {α : Type} (A B : List α) (m : Nat) (h : A.length = m) :
    (A ++ B).drop m = B := by
  rw [← h, List.drop_left]

theorem inserted_line_fragment (Lc tk : List Char) (c : Char) (tkR : List Char)
    (m : Nat) (NL : List Char) ( _htk : tk = c :: tkR)
    (hascii : utf8Len tk = tk.length)
    (hm : m ≤ Lc.length) :
    (((Lc.take m ++ (tk ++ [' ']) ++ Lc.drop m) ++ NL).drop m).take
      (Nat.min (m + utf8Len tk)
        ((Lc.take m ++ (tk ++ [' ']) ++ Lc.drop m) ++ NL).length - m) = tk := by
  have hlenA : (Lc.take m).length = m := by
    rw [List.length_take]
    omega
  have hshape : (Lc.take m ++ (tk ++ [' ']) ++ Lc.drop m) ++ NL =
      Lc.take m ++ (tk ++ (' ' :: (Lc.drop m ++ NL)))  := by
    simp [List.append_assoc]
  rw [hascii, hshape, drop_append_len _ _ m hlenA]
  have hge : m + tk.length ≤
      (Lc.take m ++ (tk ++ (' ' :: (Lc.drop m ++ NL)))).length := by
    simp only [List.length_append, List.length_cons, hlenA]
    omega
  have hmin : Nat.min (m + tk.length)
      (Lc.take m ++ (tk ++ (' ' :: (Lc.drop m ++ NL)))).length - m = tk.length := by
    have hconv : Nat.min (m + tk.length)
        (Lc.take m ++ (tk ++ (' ' :: (Lc.drop m ++ NL)))).length =
        (m + tk.length) ⊓
        (Lc.take m ++ (tk ++ (' ' :: (Lc.drop m ++ NL)))).length := rfl
    rw [hconv, Nat.min_def, if_pos hge]
    omega
  rw [hmin]
  exact take_append_len tk _ tk.length rfl

theorem inserted_line_space (Lc tk : List Char) (m : Nat) (NL : List Char)
    (hm : m ≤ Lc.length) :
    ((Lc.take m ++ (tk ++ [' ']) ++ Lc.drop m) ++ NL)[m + tk.length]? = some ' ' := by
  have hlenA : (Lc.take m).length = m := by
    rw [List.length_take]
    omega
  have hshape : (Lc.take m ++ (tk ++ [' ']) ++ Lc.drop m) ++ NL =
      (Lc.take m ++ tk) ++ (' ' :: (Lc.drop m ++ NL)) := by
    simp [List.append_assoc]
  rw [hshape,
    List.getElem?_append_right (by simp [hlenA]),
    show m + tk.length - (Lc.take m ++ tk).length = 0 from by simp [hlenA]]
  simp

theorem ext_getD {α : Type} (l1 l2 : List α) (d : α) (hlen : l1.length = l2.length)
    (h : ∀ n, n < l1.length → l1.getD n d = l2.getD n d) : l1 = l2 := by
  apply List.ext_getElem hlen
  intro n h1 h2
  have hg := h n h1
  rw [List.getD_eq_getElem?_getD, List.getD_eq_getElem?_getD,
    List.getElem?_eq_getElem h1, List.getElem?_eq_getElem h2] at hg
  simpa using hg

/-- Claim C1 (amended): for a selection of well-formed inclusive line ranges
    in which each range's end is at most the next range's start, and a token
    that starts with a non-whitespace character, contains no newline, and
    whose UTF-8 byte length equals its character count, if the classifier
    reports the selected lines uncommented (so the first toggle comments
    them), then applying toggle_line_comments twice with the same token
    reproduces the exact original document text. -/
theorem toggle_line_comments_involution (t : List Char) (sel : List (Nat × Nat))
    (tokenOpt : Option (List Char)) (c : Char) (tkR : List Char)
    (hchain : List.Chain' (fun a b => a.2 ≤ b.1) sel)
    (hwf : ∀ r ∈ sel, r.1 ≤ r.2)
    (htk : tokenOpt.getD defaultToken = c :: tkR)
    (hcw : isWhitespaceChar c = false)
    (hnl : '\n' ∉ tokenOpt.getD defaultToken)
    (hascii : utf8Len (tokenOpt.getD defaultToken) =
      (tokenOpt.getD defaultToken).length)
    (hcomm : (find_line_comment (tokenOpt.getD defaultToken) t
      (mergedLines t sel)).1 = false) :
    applyChanges (applyChanges t (toggle_line_comments t sel tokenOpt))
      (toggle_line_comments (applyChanges t (toggle_line_comments t sel tokenOpt))
        sel tokenOpt) = t := by
  obtain ⟨hsort, hbound⟩ := mergedLines_sorted_bounded t sel hchain hwf
  set tk := tokenOpt.getD defaultToken with htkdef
  set L := mergedLines t sel with hLdef
  set F := find_line_comment tk t L with hFdef
  set S := F.2.1 with hSdef
  set m := F.2.2.1 with hmdef
  have hS : S = L.filter (fun l => !lineIsBlank t l) := by
    rw [hSdef, hFdef, find_line_comment_eq]
  have hm : m = minFold t L usizeMax := by
    rw [hmdef, hFdef, find_line_comment_eq]
  have hSsort : List.Pairwise (· < ·) S := by
    rw [hS]; exact hsort.filter _
  have hSbound : ∀ x ∈ S, x < (splitLines t).length := by
    intro x hx
    rw [hS] at hx
    exact hbound x (List.mem_filter.mp hx).1
  have hSnb : ∀ x ∈ S, lineIsBlank t x = false := by
    intro x hx
    rw [hS] at hx
    simpa using (List.mem_filter.mp hx).2
  have hSmem : ∀ x ∈ S, x ∈ L := by
    intro x hx
    rw [hS] at hx
    exact (List.mem_filter.mp hx).1
  have hm_le : ∀ x ∈ S, m ≤ linePos t x := by
    intro x hx
    rw [hm]
    exact minFold_le_pos t L usizeMax x (hSmem x hx) (hSnb x hx)
  have hm_lt : ∀ x ∈ S, m < ((splitLines t).getD x []).length := by
    intro x hx
    exact lt_of_le_of_lt (hm_le x hx) (linePos_lt_content t x (hSnb x hx))
  have hblank_of_not_S : ∀ x ∈ L, x ∉ S → lineIsBlank t x = true := by
    intro x hx hxs
    by_contra hbx
    have hbf : lineIsBlank t x = false := by
      cases hb : lineIsBlank t x
      · rfl
      · exact absurd hb hbx
    exact hxs (by rw [hS]; exact List.mem_filter.mpr ⟨hx, by simp [hbf]⟩)
  -- the first toggle inserts token-plus-space at column m on every line of S
  have htog1 : toggle_line_comments t sel tokenOpt =
      S.map (fun line => ((0 : Nat) + lineToCharL (splitLines t) (line - 0) + m,
        0 + lineToCharL (splitLines t) (line - 0) + m + 0,
        some (tk ++ [' ']))) := by
    have hrfl : toggle_line_comments t sel tokenOpt =
        F.2.1.map (fun line =>
          if F.1 = true then
            (lineToChar t line + F.2.2.1,
             lineToChar t line + F.2.2.1 + utf8Len tk + F.2.2.2,
             (none : Option (List Char)))
          else
            (lineToChar t line + F.2.2.1, lineToChar t line + F.2.2.1,
             some (tk ++ [' ']))) := rfl
    rw [hrfl]
    apply List.map_congr_left
    intro x _
    rw [if_neg (by rw [hcomm]; simp)]
    simp only [lineToChar, Prod.mk.injEq, Nat.sub_zero]
    exact ⟨by omega, by omega, trivial⟩
  have hbnd1 : ∀ l ∈ S, l - 0 < (splitLines t).length ∧
      m + 0 ≤ ((splitLines t).getD (l - 0) []).length := by
    intro l hl
    refine ⟨by simpa using hSbound l hl, ?_⟩
    simp only [Nat.sub_zero, Nat.add_zero]
    exact le_of_lt (hm_lt l hl)
  have happly1 : applyChanges t (toggle_line_comments t sel tokenOpt) =
      renderLines (editLines m 0 (tk ++ [' ']) (splitLines t) 0 S) := by
    rw [htog1]
    have hmain := applyChanges_lines m 0 (some (tk ++ [' '])) S (splitLines t) 0 0
      (fun l _ => Nat.zero_le l) hSsort hbnd1
    rw [renderLines_splitLines] at hmain
    exact hmain
  set ls1 := editLines m 0 (tk ++ [' ']) (splitLines t) 0 S with hls1def
  have hlen1 : ls1.length = (splitLines t).length :=
    editLines_length m 0 (tk ++ [' ']) S (splitLines t) 0
      (fun l _ => Nat.zero_le l) hSsort (fun l hl => by simpa using hSbound l hl)
  have hget1 : ∀ j, ls1.getD j [] =
      if j ∈ S then editLine m 0 (tk ++ [' ']) ((splitLines t).getD j [])
      else (splitLines t).getD j [] := by
    intro j
    have hg := editLines_getD m 0 (tk ++ [' ']) S (splitLines t) 0
      (fun l _ => Nat.zero_le l) hSsort (fun l hl => by simpa using hSbound l hl) j
    simpa using hg
  have hnl1 : ∀ p ∈ ls1, '\n' ∉ p := by
    apply no_newline_of_getD
    intro j hj
    have hj' : j < (splitLines t).length := by omega
    have hnlj : '\n' ∉ (splitLines t).getD j [] := by
      rw [List.getD_eq_getElem?_getD, List.getElem?_eq_getElem hj']
      exact mem_splitLines_no_newline (List.getElem_mem hj')
    rw [hget1 j]
    by_cases hjS : j ∈ S
    · rw [if_pos hjS]
      intro hmem
      simp only [editLine, Nat.add_zero, List.mem_append] at hmem
      rcases hmem with (h1 | h1) | h1
      · exact hnlj (List.mem_of_mem_take h1)
      · rcases h1 with h2 | h2
        · exact hnl h2
        · simp at h2
      · exact hnlj (List.mem_of_mem_drop h1)
    · rw [if_neg hjS]
      exact hnlj
  have hne1 : ls1 ≠ [] := by
    apply List.ne_nil_of_length_pos
    rw [hlen1]
    exact List.length_pos.mpr (splitLines_ne_nil t)
  have hsplit1 : splitLines (renderLines ls1) = ls1 :=
    splitLines_renderLines hne1 hnl1
  set t1 := renderLines ls1 with ht1def
  have hlenlines : lenLines t1 = lenLines t := by
    show (splitLines t1).length = (splitLines t).length
    rw [hsplit1, hlen1]
  have hmerged1 : mergedLines t1 sel = L := by
    rw [hLdef]
    show mergedLinesN (lenLines t1) sel = mergedLinesN (lenLines t) sel
    rw [hlenlines]
  have hslice1 : ∀ j, lineSlice t1 j =
      ls1.getD j [] ++ (if j + 1 < (splitLines t).length then ['\n'] else []) := by
    intro j
    show (splitLines t1).getD j [] ++
      (if j + 1 < (splitLines t1).length then ['\n'] else []) = _
    rw [hsplit1, hlen1]
  have hws_take : ∀ j ∈ S, ∀ x ∈ ((splitLines t).getD j []).take m,
      isWhitespaceChar x = true := by
    intro j hj x hx
    have hnbj := hSnb j hj
    rcases hpos : find_first_non_whitespace_char (lineSlice t j) with _ | pos
    · simp [lineIsBlank, hpos] at hnbj
    · have hlp : linePos t j = pos := by simp [linePos, hpos]
      have hmp : m ≤ pos := by
        have := hm_le j hj
        omega
      have hLcslice : (lineSlice t j).take m = ((splitLines t).getD j []).take m := by
        simp only [lineSlice]
        rw [List.take_append_eq_append_take]
        have hz : m - ((splitLines t).getD j []).length = 0 := by
          have := hm_lt j hj
          omega
        rw [hz, List.take_zero, List.append_nil]
      have h2 : (lineSlice t j).take m = ((lineSlice t j).take pos).take m := by
        rw [List.take_take]
        congr 1
        have hconv : m ⊓ pos = m := by
          rw [Nat.min_def, if_pos hmp]
        omega
      apply fnw_take hpos
      apply List.mem_of_mem_take (n := m)
      rw [← h2, hLcslice]
      exact hx
  have hslice1S : ∀ j ∈ S, lineSlice t1 j =
      (((splitLines t).getD j []).take m ++ (tk ++ [' ']) ++
        ((splitLines t).getD j []).drop m) ++
        (if j + 1 < (splitLines t).length then ['\n'] else []) := by
    intro j hj
    rw [hslice1 j, hget1 j, if_pos hj]
    simp [editLine]
  have hfnw1 : ∀ j ∈ S, find_first_non_whitespace_char (lineSlice t1 j) = some m := by
    intro j hj
    rw [hslice1S j hj]
    exact inserted_line_fnw _ tk c tkR m _ htk hcw (hws_take j hj)
      (le_of_lt (hm_lt j hj))
  have hnb1 : ∀ j ∈ S, lineIsBlank t1 j = false := by
    intro j hj
    simp [lineIsBlank, hfnw1 j hj]
  have hpos1 : ∀ j ∈ S, linePos t1 j = m := by
    intro j hj
    simp [linePos, hfnw1 j hj]
  have hblank1 : ∀ j ∈ L, j ∉ S → lineIsBlank t1 j = true := by
    intro j hj hjs
    have hbl := hblank_of_not_S j hj hjs
    have hsl : lineSlice t1 j = lineSlice t j := by
      rw [hslice1 j, hget1 j, if_neg hjs]
      rfl
    show (find_first_non_whitespace_char (lineSlice t1 j)).isNone = true
    rw [hsl]
    exact hbl
  have hCall1 : L.all (lineCommentOk tk t1) = true := by
    rw [List.all_eq_true]
    intro j hj
    by_cases hjS : j ∈ S
    · have hfr : lineFragment tk t1 j = tk := by
        simp only [lineFragment, hpos1 j hjS]
        rw [hslice1S j hjS]
        exact inserted_line_fragment _ tk c tkR m _ htk hascii
          (le_of_lt (hm_lt j hjS))
      simp [lineCommentOk, hfr]
    · simp [lineCommentOk, hblank1 j hj hjS]
  have hSp1 : L.all (lineSpaceOk tk t1) = true := by
    rw [List.all_eq_true]
    intro j hj
    by_cases hjS : j ∈ S
    · have hsp : (lineSlice t1 j)[linePos t1 j + tk.length]? = some ' ' := by
        rw [hpos1 j hjS, hslice1S j hjS]
        exact inserted_line_space _ tk m _ (le_of_lt (hm_lt j hjS))
      simp [lineSpaceOk, hsp]
    · simp [lineSpaceOk, hblank1 j hj hjS]
  have hFil1 : L.filter (fun l => !lineIsBlank t1 l) = S := by
    rw [hS]
    apply List.filter_congr
    intro j hj
    by_cases hjS : j ∈ S
    · simp [hnb1 j hjS, hSnb j hjS]
    · simp [hblank1 j hj hjS, hblank_of_not_S j hj hjS]
  have hSne : S ≠ [] := by
    intro hSe
    have hCallt : L.all (lineCommentOk tk t) = true := by
      rw [List.all_eq_true]
      intro j hj
      have hbl : lineIsBlank t j = true :=
        hblank_of_not_S j hj (by rw [hSe]; simp)
      simp [lineCommentOk, hbl]
    have hcf : F.1 = true := by
      rw [hFdef, find_line_comment_eq]
      exact hCallt
    rw [hcomm] at hcf
    exact absurd hcf (by simp)
  have hMin1 : minFold t1 L usizeMax = m := by
    have hmle : m ≤ usizeMax := by
      rw [hm]
      exact minFold_le_init t L usizeMax
    have hmc := minFold_const t1 m L usizeMax hmle ?hconst
    case hconst =>
      intro j hj hnb
      by_cases hjS : j ∈ S
      · exact hpos1 j hjS
      · rw [hblank1 j hj hjS] at hnb
        exact absurd hnb (by simp)
    rw [hmc, if_pos ?hany]
    case hany =>
      rcases hhd : S with _ | ⟨s0, S'⟩
      · exact absurd hhd hSne
      · have hs0 : s0 ∈ S := by
          rw [hhd]
          exact List.mem_cons_self _ _
        rw [List.any_eq_true]
        exact ⟨s0, hSmem s0 hs0, by simp [hnb1 s0 hs0]⟩
  have hF2 : find_line_comment tk t1 L = (true, S, m, 1) := by
    rw [find_line_comment_eq]
    simp only [Prod.mk.injEq]
    exact ⟨hCall1, hFil1, hMin1, by rw [if_pos hSp1]⟩
  have htog2 : toggle_line_comments t1 sel tokenOpt =
      S.map (fun line => ((0 : Nat) + lineToCharL ls1 (line - 0) + m,
        0 + lineToCharL ls1 (line - 0) + m + (utf8Len tk + 1),
        (none : Option (List Char)))) := by
    have hrfl : toggle_line_comments t1 sel tokenOpt =
        (find_line_comment tk t1 (mergedLines t1 sel)).2.1.map (fun line =>
          if (find_line_comment tk t1 (mergedLines t1 sel)).1 = true then
            (lineToChar t1 line +
              (find_line_comment tk t1 (mergedLines t1 sel)).2.2.1,
             lineToChar t1 line +
              (find_line_comment tk t1 (mergedLines t1 sel)).2.2.1 +
               utf8Len tk +
               (find_line_comment tk t1 (mergedLines t1 sel)).2.2.2,
             (none : Option (List Char)))
          else
            (lineToChar t1 line +
              (find_line_comment tk t1 (mergedLines t1 sel)).2.2.1,
             lineToChar t1 line +
              (find_line_comment tk t1 (mergedLines t1 sel)).2.2.1,
             some (tk ++ [' ']))) := rfl
    rw [hrfl, hmerged1, hF2]
    show S.map _ = S.map _
    apply List.map_congr_left
    intro x _
    rw [if_pos rfl]
    have hltc : lineToChar t1 x = lineToCharL ls1 x := by
      show lineToCharL (splitLines t1) x = _
      rw [hsplit1]
    simp only [Prod.mk.injEq, Nat.sub_zero]
    rw [hltc]
    exact ⟨by omega, by omega, trivial⟩
  have hbnd2 : ∀ l ∈ S, l - 0 < ls1.length ∧
      m + (utf8Len tk + 1) ≤ (ls1.getD (l - 0) []).length := by
    intro l hl
    constructor
    · simp only [Nat.sub_zero]
      rw [hlen1]
      exact hSbound l hl
    · simp only [Nat.sub_zero]
      rw [hget1 l, if_pos hl]
      simp only [editLine, Nat.add_zero, List.length_append, List.length_take,
        List.length_drop]
      have h1 := hm_lt l hl
      have hminv : m ⊓ ((splitLines t).getD l []).length = m := by
        rw [Nat.min_def, if_pos (le_of_lt h1)]
      rw [hminv, hascii]
      simp only [List.length_append, List.length_cons, List.length_nil]
      omega
  have happly2 : applyChanges t1 (toggle_line_comments t1 sel tokenOpt) =
      renderLines (editLines m (utf8Len tk + 1) [] ls1 0 S) := by
    rw [htog2]
    have hmain := applyChanges_lines m (utf8Len tk + 1)
      (none : Option (List Char)) S ls1 0 0
      (fun l _ => Nat.zero_le l) hSsort hbnd2
    exact hmain
  have hfinal : editLines m (utf8Len tk + 1) [] ls1 0 S = splitLines t := by
    apply ext_getD _ _ []
    · rw [editLines_length m (utf8Len tk + 1) [] S ls1 0
        (fun l _ => Nat.zero_le l) hSsort
        (fun l hl => by simp only [Nat.sub_zero]; rw [hlen1]; exact hSbound l hl),
        hlen1]
    · intro n hn
      have hgd := editLines_getD m (utf8Len tk + 1) [] S ls1 0
        (fun l _ => Nat.zero_le l) hSsort
        (fun l hl => by simp only [Nat.sub_zero]; rw [hlen1]; exact hSbound l hl) n
      simp only [Nat.add_zero, Nat.sub_zero] at hgd
      rw [hgd, hget1 n]
      by_cases hnS : n ∈ S
      · rw [if_pos hnS, if_pos hnS]
        have hmLc : m ≤ ((splitLines t).getD n []).length := le_of_lt (hm_lt n hnS)
        have hlenA : (((splitLines t).getD n []).take m).length = m := by
          rw [List.length_take]
          have hconv : m ⊓ ((splitLines t).getD n []).length = m := by
            rw [Nat.min_def, if_pos hmLc]
          omega
        simp only [editLine, Nat.add_zero]
        have hX2 : ((splitLines t).getD n []).take m ++ (tk ++ [' ']) ++
            ((splitLines t).getD n []).drop m =
            (((splitLines t).getD n []).take m ++ (tk ++ [' '])) ++
            ((splitLines t).getD n []).drop m := by
          simp [List.append_assoc]
        rw [hX2]
        have htpart : ((((splitLines t).getD n []).take m ++ (tk ++ [' '])) ++
            ((splitLines t).getD n []).drop m).take m =
            ((splitLines t).getD n []).take m := by
          have hX3 : (((splitLines t).getD n []).take m ++ (tk ++ [' '])) ++
              ((splitLines t).getD n []).drop m =
              ((splitLines t).getD n []).take m ++
                ((tk ++ [' ']) ++ ((splitLines t).getD n []).drop m) := by
            simp [List.append_assoc]
          rw [hX3]
          exact take_append_len _ _ m hlenA
        have hdpart : ((((splitLines t).getD n []).take m ++ (tk ++ [' '])) ++
            ((splitLines t).getD n []).drop m).drop (m + (utf8Len tk + 1)) =
            ((splitLines t).getD n []).drop m := by
          apply drop_append_len
          simp only [List.length_append, List.length_cons, List.length_nil]
          omega
        rw [htpart, hdpart]
        simp [List.take_append_drop]
      · rw [if_neg hnS, if_neg hnS]
  rw [happly1, happly2, hfinal, renderLines_splitLines]

/-- Claim C1 counterexample: toggling twice with the same token does not, in
    general, reproduce the original document text.  (a) An already commented
    document "//x": the first toggle removes the token with margin 0 giving
    "x", the second inserts token plus space giving "// x".  (b) A multi-byte
    token "£": the classifier compares a slice of byte length, which never
    equals the token, so both toggles insert.  (c) A token " /" starting with
    whitespace: the insertion shifts the indentation column, so the second
    toggle classifies the line uncommented and inserts again.  (d) A token
    "a\n" containing a newline: the insertion changes the line structure, and
    the second toggle deletes from the new first line only. -/
theorem toggle_line_comments_not_involution :
    doubleToggle ("//x".toList) [(0, 0)] none ≠ "//x".toList ∧
    doubleToggle ("x".toList) [(0, 0)] (some ("£".toList)) ≠ "x".toList ∧
    doubleToggle ("x".toList) [(0, 0)] (some (" /".toList)) ≠ "x".toList ∧
    doubleToggle ("x".toList) [(0, 0)] (some ("a\n".toList)) ≠ "x".toList := by
  decide

/-- Witness for the amended C1 theorem at spec section 8 scenario A: the
    document "  1\n\n  2\n  3" with the whole-document selection and the
    default token round-trips exactly under two toggles. -/
theorem toggle_line_comments_involution_witness :
    applyChanges
        (applyChanges ("  1\n\n  2\n  3".toList)
          (toggle_line_comments ("  1\n\n  2\n  3".toList) [(0, 3)] none))
        (toggle_line_comments
          (applyChanges ("  1\n\n  2\n  3".toList)
            (toggle_line_comments ("  1\n\n  2\n  3".toList) [(0, 3)] none))
          [(0, 3)] none) = "  1\n\n  2\n  3".toList :=
  toggle_line_comments_involution ("  1\n\n  2\n  3".toList) [(0, 3)] none '/' ['/']
    (List.chain'_singleton _) (by decide) (by decide) (by decide) (by decide)
    (by decide) (by decide)

/-- Claim C5 counterexample: the code pairs the matched token with
    pos + byte-length(token) - 1 (comment.rs line 124), not the claim's
    indentColumn + tokenCharLength - 1, and the match predicate itself slices
    byte-length characters (line 118).  On line "  £" the one-character
    two-byte token "£" matches via end-of-line clipping and the code returns
    position 3 where the claim's formula gives 2 + 1 - 1 = 2; on line "£x"
    the character-length slice at the indentation column equals the token,
    yet the byte-length slice "£x" does not, so the matcher returns none. -/
theorem get_comment_token_position_byte_cex :
    find_first_non_whitespace_char (lineSlice ("  £".toList) 0) = some 2 ∧
    get_comment_token_and_position ("  £".toList) 0 [("£".toList)] =
      some ("£".toList, 3) ∧
    get_comment_token_and_position ("  £".toList) 0 [("£".toList)] ≠
      some ("£".toList, 2 + ("£".toList).length - 1) ∧
    get_comment_token_and_position ("£x".toList) 0 [("£".toList)] = none ∧
    ((lineSlice ("£x".toList) 0).drop 0).take (("£".toList).length) =
      "£".toList := by
  decide

/-- Witness for the amended claim C5 at the spec's own example: on line
    "//! /// 6" with the ASCII tokens ["//", "///", "//!", ";"] the matcher
    returns the last matching token with the character-based position. -/
theorem get_comment_token_last_match_witness :
    get_comment_token_and_position ("//! /// 6".toList) 0
        ["//".toList, "///".toList, "//!".toList, ";".toList] =
      some ("//!".toList, 2) :=
  (get_comment_token_last_match ("//! /// 6".toList) 0
    ["//".toList, "///".toList, "//!".toList, ";".toList] (by decide)).2
